import Mathlib

/-!
Verification of the core of `src/puzzle_generation/board_generation/generate_boards.py`:
the count-based trie (`Trie.add_word`, `Trie.remove_word`, `Trie.is_valid_prefix`
-- here `Trie.next_letters` --, `Trie.is_word`), the backtracking grid filler
`fill_grid`, the entry extractor `compute_entries`, and the per-date generation
loop of `main` with its 100-day rolling-history window.

Python mutable state is threaded explicitly: the solver's state record carries
the grid, the `used_words` set (as a list) and the trie, and `fill_grid` returns
the final trie next to its result so that the side effect on the caller's trie
is observable.  `random.shuffle` is modelled by an arbitrary reordering oracle
`pick` (the code only permutes the candidate list, and all universally
quantified theorems below hold for every oracle).  Python dicts are modelled as
association lists preserving insertion order; Python sets by lists where only
membership matters.
-/

set_option maxHeartbeats 1000000
set_option maxRecDepth 8192
set_option linter.unusedVariables false

namespace Crossword

abbrev Word := List Char

/-- A trie node (`TrieNode` in the source): insertion-ordered children map,
an integer `count` (Python ints may go negative under unbalanced removes),
and the `is_word_end` flag. -/
inductive Trie : Type where
  | node : Int → Bool → List (Char × Trie) → Trie

def Trie.count : Trie → Int
  | .node c _ _ => c

def Trie.wordEnd : Trie → Bool
  | .node _ w _ => w

def Trie.children : Trie → List (Char × Trie)
  | .node _ _ l => l

def Trie.empty : Trie := .node 0 false []

/-- Lookup in an insertion-ordered children map (Python `dict` access). -/
def findC : List (Char × Trie) → Char → Option Trie
  | [], _ => none
  | (a, t) :: l, c => if a = c then some t else findC l c

/-- Update-or-append in an insertion-ordered children map (Python `dict` assignment). -/
def setC : List (Char × Trie) → Char → Trie → List (Char × Trie)
  | [], c, t => [(c, t)]
  | (a, u) :: l, c, t => if a = c then (a, t) :: l else (a, u) :: setC l c t

/-- `Trie.add_word` from the source: increment `count` on every node along the
path (creating missing nodes), then set `is_word_end` at the terminal node. -/
def Trie.add_word : Trie → Word → Trie
  | .node cnt we ch, [] => .node (cnt + 1) true ch
  | .node cnt we ch, c :: w =>
      let child := (findC ch c).getD Trie.empty
      .node (cnt + 1) we (setC ch c (child.add_word w))

/-- `Trie.remove_word` from the source: walk the path decrementing `count`,
returning early (after the decrements already made) if a child is missing.
`is_word_end` is never cleared. -/
def Trie.remove_word : Trie → Word → Trie
  | .node cnt we ch, [] => .node (cnt - 1) we ch
  | .node cnt we ch, c :: w =>
      match findC ch c with
      | none => .node cnt we ch
      | some child => .node (cnt - 1) we (setC ch c (child.remove_word w))

/-- `Trie.is_valid_prefix` from the source: walk the path; abort with the
empty set if a child is missing or a visited node has `count == 0`; at the
end return the child characters whose node has `count > 0`.  The Python
set of characters is modelled as the (insertion-ordered) key list. -/
def Trie.next_letters : Trie → Word → List Char
  | t, [] => (t.children.filter (fun p => 0 < p.2.count)).map Prod.fst
  | t, c :: w =>
      match findC t.children c with
      | none => []
      | some child => if child.count = 0 then [] else child.next_letters w

/-- `Trie.is_word` from the source: walk the full path; true iff the terminal
node has `is_word_end` set and `count > 0` (only the terminal count is checked). -/
def Trie.is_word : Trie → Word → Bool
  | t, [] => t.wordEnd && decide ((0 : Int) < t.count)
  | t, c :: w =>
      match findC t.children c with
      | none => false
      | some child => child.is_word w

/-- Count observed at a path (0 when the node is missing). -/
def Trie.cntAt : Trie → Word → Int
  | t, [] => t.count
  | t, c :: p =>
      match findC t.children c with
      | none => 0
      | some child => child.cntAt p

/-- End-of-word flag observed at a path (false when the node is missing). -/
def Trie.weAt : Trie → Word → Bool
  | t, [] => t.wordEnd
  | t, c :: p =>
      match findC t.children c with
      | none => false
      | some child => child.weAt p

/-- Whether the full path of `p` exists in the trie. -/
def Trie.exAt : Trie → Word → Bool
  | _, [] => true
  | t, c :: p =>
      match findC t.children c with
      | none => false
      | some child => child.exAt p

/-- Membership in the word set loaded into the trie: the path exists and its
terminal node is marked as end of word (`is_word_end` is set exactly by
`add_word`, and never cleared). -/
def Trie.hasWordMark (t : Trie) (w : Word) : Prop := t.exAt w = true ∧ t.weAt w = true

/-- Fold `remove_word` over a list: `removeList [w1, ..., wn] t` removes `wn`
first and `w1` last, matching how a run of the solver that currently has
`used_words = [w1, ..., wn]` (most recent first) reached its trie. -/
def removeList : List Word → Trie → Trie
  | [], t => t
  | w :: l, t => (removeList l t).remove_word w

/-- Boolean list-prefix test (used to state count characterizations). -/
def isPre (p w : Word) : Bool := List.isPrefixOf p w

/-- Left fold of `remove_word` (the commit loop removes words in list order). -/
def remAll (t : Trie) (L : List Word) : Trie := L.foldl Trie.remove_word t

/-- Left fold of `add_word` (the undo loop re-adds words in list order; also
how a trie is built from a word list). -/
def addAll (t : Trie) (L : List Word) : Trie := L.foldl Trie.add_word t

/-- Well-formed trie: every children map has distinct keys.  All tries built
by the operations from `Trie.empty` are well-formed. -/
inductive TrieWF : Trie → Prop where
  | node : ∀ (cnt : Int) (we : Bool) (l : List (Char × Trie)),
      (l.map Prod.fst).Nodup → (∀ p ∈ l, TrieWF p.2) → TrieWF (.node cnt we l)

/-- A disable (`remove_word`) or enable (`add_word`) call, for stating the
balanced-sequence claim about the trie. -/
inductive TOp : Type where
  | dis : Word → TOp
  | en : Word → TOp
deriving DecidableEq

def TOp.word : TOp → Word
  | .dis w => w
  | .en w => w

def applyTOp (t : Trie) : TOp → Trie
  | .dis w => t.remove_word w
  | .en w => t.add_word w

def applyTOps (t : Trie) : List TOp → Trie
  | [] => t
  | op :: l => applyTOps (applyTOp t op) l

/-- A sequence of disable/enable calls is balanced when every word is disabled
and enabled the same number of times. -/
def BalancedTOps (L : List TOp) : Prop :=
  ∀ op ∈ L, L.count (TOp.dis op.word) = L.count (TOp.en op.word)

/-- Per-node count delta of one disable/enable call (valid when disables hit
words with a present path). -/
def tOpDelta (p : Word) : TOp → Int
  | .dis w => if isPre p w then -1 else 0
  | .en w => if isPre p w then 1 else 0

/-- Accumulated count delta of a call sequence at one node. -/
def deltaSum (p : Word) (L : List TOp) : Int := (L.map (tOpDelta p)).sum

/-! ### The grid and the solver (`fill_grid`) -/

abbrev Grid := List (List (Option Char))

/-- Cell read (`grid[r][c]`); Python's `''` is `none`. -/
def getCell (g : Grid) (r c : Nat) : Option Char := (g.getD r []).getD c none

/-- Cell write (`grid[r][c] = ch` / `= ''`). -/
def setCell (g : Grid) (r c : Nat) (v : Option Char) : Grid :=
  g.set r ((g.getD r []).set c v)

/-- Dimension discipline of a grid allocated as `rows` x `cols`. -/
def WFGrid (rows cols : Nat) (g : Grid) : Prop :=
  g.length = rows ∧ ∀ row ∈ g, row.length = cols

/-- Membership in the `black_squares` set. -/
def isBlack (bl : List (Nat × Nat)) (r c : Nat) : Bool := decide ((r, c) ∈ bl)

/-- The row-major list of non-blocked positions (`fill_positions`). -/
def fillPositions (rows cols : Nat) (bl : List (Nat × Nat)) : List (Nat × Nat) :=
  (List.range rows).flatMap fun r =>
    (List.range cols).filterMap fun c =>
      if isBlack bl r c then none else some (r, c)

/-- The scan of `get_row_prefix` locating `start_c`: walk left from `c-1`
while in bounds and not blocked, stopping (inclusive) at an empty cell.
The second argument is the running `start_c`, the third is `cc + 1`. -/
def rowStartP (g : Grid) (bl : List (Nat × Nat)) (r : Nat) : Nat → Nat → Nat
  | sc, 0 => sc
  | sc, k + 1 =>
      if isBlack bl r k then sc
      else if getCell g r k = none then k
      else rowStartP g bl r k k

/-- The scan of `get_col_prefix` locating `start_r`. -/
def colStartP (g : Grid) (bl : List (Nat × Nat)) (c : Nat) : Nat → Nat → Nat
  | sr, 0 => sr
  | sr, k + 1 =>
      if isBlack bl k c then sr
      else if getCell g k c = none then k
      else colStartP g bl c k k

/-- Collect the letters of the given cells, stopping at the first empty cell
(the collection loops of `get_row_prefix` / `get_col_prefix`). -/
def takeCells (g : Grid) : List (Nat × Nat) → List Char
  | [] => []
  | (r, c) :: rest =>
      match getCell g r c with
      | none => []
      | some ch => ch :: takeCells g rest

/-- `get_row_prefix(r, c)`. -/
def rowPref (g : Grid) (bl : List (Nat × Nat)) (r c : Nat) : Word :=
  let s := rowStartP g bl r c c
  takeCells g ((List.range' s (c - s)).map fun x => (r, x))

/-- `get_col_prefix(r, c)`. -/
def colPref (g : Grid) (bl : List (Nat × Nat)) (r c : Nat) : Word :=
  let s := colStartP g bl c r r
  takeCells g ((List.range' s (r - s)).map fun x => (x, c))

/-- `completes_across(r, c)`: placing at `(r, c)` closes the horizontal run. -/
def completes_across (bl : List (Nat × Nat)) (cols r c : Nat) : Bool :=
  decide (c + 1 = cols) || isBlack bl r (c + 1)

/-- `completes_down(r, c)`. -/
def completes_down (bl : List (Nat × Nat)) (rows r c : Nat) : Bool :=
  decide (r + 1 = rows) || isBlack bl (r + 1) c

/-- The scan of `build_completed_row_word` locating `start_c`: walk left
while in bounds, not blocked and non-empty. -/
def wordStartRow (g : Grid) (bl : List (Nat × Nat)) (r : Nat) : Nat → Nat → Nat
  | sc, 0 => sc
  | sc, k + 1 =>
      if isBlack bl r k || decide (getCell g r k = none) then sc
      else wordStartRow g bl r k k

/-- The scan of `build_completed_col_word` locating `start_r`. -/
def wordStartCol (g : Grid) (bl : List (Nat × Nat)) (c : Nat) : Nat → Nat → Nat
  | sr, 0 => sr
  | sr, k + 1 =>
      if isBlack bl k c || decide (getCell g k c = none) then sr
      else wordStartCol g bl c k k

/-- `build_completed_row_word(r, c, ch)`. -/
def build_completed_row_word (g : Grid) (bl : List (Nat × Nat)) (r c : Nat) (ch : Char) : Word :=
  let s := wordStartRow g bl r c c
  ((List.range' s (c - s)).filterMap fun x => getCell g r x) ++ [ch]

/-- `build_completed_col_word(r, c, ch)`. -/
def build_completed_col_word (g : Grid) (bl : List (Nat × Nat)) (r c : Nat) (ch : Char) : Word :=
  let s := wordStartCol g bl c r r
  ((List.range' s (r - s)).filterMap fun x => getCell g x c) ++ [ch]

/-- The solver's mutable state: the grid, the `used_words` set (a list; only
membership matters) and the trie. -/
structure St where
  grid : Grid
  used : List Word
  trie : Trie

/-- First-occurrence deduplication (`list(dict.fromkeys(completed_words))`). -/
def dedupFirst : List Word → List Word
  | [] => []
  | w :: l => w :: (dedupFirst l).filter (fun x => x ≠ w)

/-- The per-candidate validation in `backtrack`: returns the list of completed
words (across first, then down) when every closed run passes `is_word`, and
`none` when the candidate letter is to be skipped. -/
def closedWords (bl : List (Nat × Nat)) (rows cols r c : Nat) (ch : Char) (st : St) :
    Option (List Word) :=
  let a :=
    if completes_across bl cols r c then
      let w := build_completed_row_word st.grid bl r c ch
      if st.trie.is_word w then some [w] else none
    else some []
  match a with
  | none => none
  | some ws =>
      if completes_down bl rows r c then
        let w := build_completed_col_word st.grid bl r c ch
        if st.trie.is_word w then some (ws ++ [w]) else none
      else some ws

/-- The commit at lines 241-244: write the letter, then for each closed word
remove it from the trie and add it to `used_words`. -/
def commitSt (r c : Nat) (ch : Char) (ws : List Word) (st : St) : St :=
  ws.foldl (fun s w => ⟨s.grid, w :: s.used, s.trie.remove_word w⟩)
    ⟨setCell st.grid r c (some ch), st.used, st.trie⟩

/-- The undo at lines 249-252: for each closed word add it back to the trie
and drop it from `used_words`, then clear the letter. -/
def undoSt (r c : Nat) (ws : List Word) (st : St) : St :=
  let s := ws.foldl (fun s w => ⟨s.grid, s.used.erase w, s.trie.add_word w⟩) st
  ⟨setCell s.grid r c none, s.used, s.trie⟩

/-- The candidate-letter loop of `backtrack` (`for ch in possible`).
`recur` is the recursive call at the next position. -/
def letterLoop (recur : St → Option Grid × St) (bl : List (Nat × Nat))
    (rows cols r c : Nat) : List Char → St → Option Grid × St
  | [], st => (none, st)
  | ch :: more, st =>
      match closedWords bl rows cols r c ch st with
      | none => letterLoop recur bl rows cols r c more st
      | some cws =>
          let uniq := dedupFirst cws
          if uniq.length ≠ cws.length then letterLoop recur bl rows cols r c more st
          else if uniq.any (fun w => decide (w ∈ st.used)) then
            letterLoop recur bl rows cols r c more st
          else
            match recur (commitSt r c ch uniq st) with
            | (some g, st2) => (some g, st2)
            | (none, st2) =>
                letterLoop recur bl rows cols r c more (undoSt r c uniq st2)

/-- `backtrack(pos_index)`: the remaining suffix of `fill_positions` indexes
the recursion.  The reordering of the candidate list by `random.shuffle` is
an oracle `pick`, keyed by the number of remaining positions. -/
def backtrackAux (pick : Nat → List Char → List Char) (bl : List (Nat × Nat))
    (rows cols : Nat) : List (Nat × Nat) → St → Option Grid × St
  | [], st => (some st.grid, st)
  | (r, c) :: rest, st =>
      let pr := st.trie.next_letters (rowPref st.grid bl r c)
      if pr = [] then (none, st)
      else
        let pc := st.trie.next_letters (colPref st.grid bl r c)
        if pc = [] then (none, st)
        else
          let possible := pr.filter (fun ch => decide (ch ∈ pc))
          if possible = [] then (none, st)
          else
            letterLoop (backtrackAux pick bl rows cols rest) bl rows cols r c
              (pick rest.length possible) st

/-- `fill_grid`: returns the filled grid (`none` models the `[]` failure
signal) together with the final state of the caller's trie. -/
def fill_grid (pick : Nat → List Char → List Char) (trie : Trie) (rows cols : Nat)
    (black_squares : List (Nat × Nat)) : Option Grid × Trie :=
  let g0 : Grid := List.replicate rows (List.replicate cols none)
  let res := backtrackAux pick black_squares rows cols
    (fillPositions rows cols black_squares) ⟨g0, [], trie⟩
  (res.1, res.2.trie)

/-- The identity candidate order (one concrete resolution of the shuffle). -/
def pick0 : Nat → List Char → List Char := fun _ l => l

/-! ### Maximal runs (the specification-side view of entries) -/

/-- A candidate run: direction, start cell, length. -/
structure Run where
  across : Bool
  r : Nat
  c : Nat
  len : Nat
deriving DecidableEq

/-- The cells of a run. -/
def Run.cells (R : Run) : List (Nat × Nat) :=
  if R.across then (List.range' R.c R.len).map fun x => (R.r, x)
  else (List.range' R.r R.len).map fun x => (x, R.c)

/-- A maximal horizontal or vertical run of non-blocked cells: nonempty,
in bounds, free of blocked cells, and bounded by a blocked cell or the grid
edge on either side. -/
def IsMaxRun (rows cols : Nat) (bl : List (Nat × Nat)) (R : Run) : Prop :=
  if R.across then
    1 ≤ R.len ∧ R.r < rows ∧ R.c + R.len ≤ cols ∧
    (∀ i < R.len, isBlack bl R.r (R.c + i) = false) ∧
    (R.c = 0 ∨ isBlack bl R.r (R.c - 1) = true) ∧
    (R.c + R.len = cols ∨ isBlack bl R.r (R.c + R.len) = true)
  else
    1 ≤ R.len ∧ R.c < cols ∧ R.r + R.len ≤ rows ∧
    (∀ i < R.len, isBlack bl (R.r + i) R.c = false) ∧
    (R.r = 0 ∨ isBlack bl (R.r - 1) R.c = true) ∧
    (R.r + R.len = rows ∨ isBlack bl (R.r + R.len) R.c = true)

/-- The word spelled by a run (letters of its filled cells, in order). -/
def runAnswer (g : Grid) (R : Run) : Word :=
  R.cells.filterMap fun p => getCell g p.1 p.2

/-- All cells of the run are filled. -/
def RunClosed (g : Grid) (R : Run) : Prop :=
  ∀ p ∈ R.cells, getCell g p.1 p.2 ≠ none

/-! ### `compute_entries` -/

structure Entry where
  across : Bool
  row : Nat
  col : Nat
  length : Nat
  answer : Word
deriving DecidableEq

/-- The inner scan of `compute_entries` locating `end_c` (resp. `end_r`):
advance while in bounds and not blocked.  The first argument bounds the scan
by the remaining distance to the edge. -/
def runEndAcross (bl : List (Nat × Nat)) (r : Nat) : Nat → Nat → Nat
  | 0, c => c
  | fuel + 1, c => if isBlack bl r c then c else runEndAcross bl r fuel (c + 1)

def runEndDown (bl : List (Nat × Nat)) (c : Nat) : Nat → Nat → Nat
  | 0, r => r
  | fuel + 1, r => if isBlack bl r c then r else runEndDown bl c fuel (r + 1)

/-- One row of the across scan of `compute_entries` (`while c < cols`).
The fuel argument bounds the iteration count (the scan strictly advances). -/
def entsRowFrom (g : Grid) (bl : List (Nat × Nat)) (cols r : Nat) :
    Nat → Nat → List Entry
  | 0, _ => []
  | fuel + 1, c =>
      if h : c < cols then
        if !isBlack bl r c && (decide (c = 0) || isBlack bl r (c - 1)) then
          let e := runEndAcross bl r (cols - c) c
          let len := e - c
          (if 2 ≤ len then
            [⟨true, r, c, len, (List.range' c len).filterMap fun x => getCell g r x⟩]
          else []) ++ entsRowFrom g bl cols r fuel e
        else entsRowFrom g bl cols r fuel (c + 1)
      else []

/-- One column of the down scan of `compute_entries`. -/
def entsColFrom (g : Grid) (bl : List (Nat × Nat)) (rows c : Nat) :
    Nat → Nat → List Entry
  | 0, _ => []
  | fuel + 1, r =>
      if h : r < rows then
        if !isBlack bl r c && (decide (r = 0) || isBlack bl (r - 1) c) then
          let e := runEndDown bl c (rows - r) r
          let len := e - r
          (if 2 ≤ len then
            [⟨false, r, c, len, (List.range' r len).filterMap fun x => getCell g x c⟩]
          else []) ++ entsColFrom g bl rows c fuel e
        else entsColFrom g bl rows c fuel (r + 1)
      else []

/-- `compute_entries`: across entries (rows in order) then down entries
(columns in order).  The answer letters are collected from the final grid;
`None` cells contribute nothing (like `''` in the Python join). -/
def compute_entries (rows cols : Nat) (bl : List (Nat × Nat)) (g : Grid) : List Entry :=
  ((List.range rows).flatMap fun r => entsRowFrom g bl cols r cols 0) ++
  ((List.range cols).flatMap fun c => entsColFrom g bl rows c rows 0)

/-- Row-major order on cells (the order in which `fill_positions` lists them). -/
def rmLt (p q : Nat × Nat) : Prop := p.1 < q.1 ∨ (p.1 = q.1 ∧ p.2 < q.2)

/-- The backtracking invariant.  Relative to the initial trie `T0` and the
split of `fill_positions` into processed (`procd`) and remaining (`rest`)
positions: remaining cells are empty and processed cells are filled; the
answers of the closed maximal runs are exactly recorded in `used_words`,
pairwise distinct, each passed `is_word` against (a trie observably equal to)
`T0`; and the trie is `T0` with exactly the `used_words` removed. -/
def Inv (T0 : Trie) (rows cols : Nat) (bl : List (Nat × Nat))
    (procd rest : List (Nat × Nat)) (st : St) : Prop :=
  WFGrid rows cols st.grid ∧
  (∀ p ∈ rest, getCell st.grid p.1 p.2 = none) ∧
  (∀ p ∈ procd, getCell st.grid p.1 p.2 ≠ none) ∧
  (∀ R : Run, IsMaxRun rows cols bl R → RunClosed st.grid R →
    runAnswer st.grid R ∈ st.used) ∧
  (∀ R1 R2 : Run, IsMaxRun rows cols bl R1 → IsMaxRun rows cols bl R2 →
    RunClosed st.grid R1 → RunClosed st.grid R2 → R1 ≠ R2 →
    runAnswer st.grid R1 ≠ runAnswer st.grid R2) ∧
  (∀ w ∈ st.used, T0.exAt w = true ∧ T0.weAt w = true) ∧
  st.used.Nodup ∧
  st.trie = removeList st.used T0

/-! ### Uppercasing, the daily dictionary and the generation loop of `main` -/

/-- ASCII uppercasing of one character (Python `str.upper` on the ASCII
letters the word lists contain). -/
def upChar (c : Char) : Char :=
  if c.isLower then Char.ofNat (c.toNat - 32) else c

/-- ASCII lowercasing of one character (Python `str.lower`). -/
def lowChar (c : Char) : Char :=
  if c.isUpper then Char.ofNat (c.toNat + 32) else c

def lowStr (w : Word) : Word := w.map lowChar

/-- `build_final_grid`: blocked cells become `none`, letters are uppercased.
(An unfilled non-blocked cell would render as Python `''`, which behaves like
`none` in `compute_entries`; after a successful solve none remain.) -/
def build_final_grid (rows cols : Nat) (bl : List (Nat × Nat)) (g : Grid) : Grid :=
  (List.range rows).map fun r =>
    (List.range cols).map fun c =>
      if isBlack bl r c then none else (getCell g r c).map upChar

/-- `build_trie_from_words`: lowercase, keep purely alphabetic words with
length in `[min_length, max_length]`, and add them to a fresh trie.  (The
source groups words by length before inserting; grouping only permutes the
insertion order, which no trie observable used by the solver depends on, so
the list order stands in for the set/group iteration order.) -/
def build_trie_from_words (all_words : List Word) (max_length min_length : Nat) : Trie :=
  ((all_words.map lowStr).filter fun w =>
      w.all Char.isAlpha && decide (min_length ≤ w.length) && decide (w.length ≤ max_length)).foldl
    Trie.add_word Trie.empty

/-- Inputs of the generation loop of `main`: the base word list
(`filtered_words.txt`, lowercased alphabetic words), the exclusion list, the
weekday-indexed template table (dates are day numbers, weekday = date mod 7),
and the shuffle oracle keyed by (date, attempt). -/
structure GenCfg where
  base : List Word
  excl : List Word
  tmpl : Nat → Option (Nat × Nat × List (Nat × Nat))
  oracle : Nat → Nat → Nat → List Char → List Char

/-- Dictionary lookup `history_words_by_date.get(d)` with `[]` default. -/
def histGet (hist : List (Nat × List Word)) (d : Nat) : List Word :=
  ((hist.find? fun p => p.1 == d).map Prod.snd).getD []

/-- `usable_words = base - exclusions - previously_used` (iteration order
canonically the base-list order). -/
def usableFor (cfg : GenCfg) (prev : List Word) : List Word :=
  cfg.base.filter fun w => !cfg.excl.contains w && !prev.contains w

/-- The attempt loop (`for attempt in range(20)`): first successful fill, if any. -/
def tryAttempts (cfg : GenCfg) (trie : Trie) (rows cols : Nat) (bl : List (Nat × Nat))
    (cur : Nat) : Nat → Nat → Option Grid
  | 0, _ => none
  | fuel + 1, a =>
      match (fill_grid (cfg.oracle cur a) trie rows cols bl).1 with
      | some g => some g
      | none => tryAttempts cfg trie rows cols bl cur fuel (a + 1)

/-- Rolling the window at the end of a date: remove the words of day
`cur - 100` from `previously_used`. -/
def dropRoll (hist : List (Nat × List Word)) (cur : Nat) (prev : List Word) : List Word :=
  prev.filter fun w => !(histGet hist (cur - 100)).contains w

/-- One date of the generation loop of `main`: template lookup, daily
dictionary, trie build, up to 20 fill attempts, extraction of today's words,
and the history/window update.  Returns the new history map, the new
`previously_used`, and today's record when a board was generated. -/
def genStep (cfg : GenCfg) (cur : Nat) (hist : List (Nat × List Word)) (prev : List Word) :
    List (Nat × List Word) × List Word × Option (Grid × List Word) :=
  match cfg.tmpl (cur % 7) with
  | none => (hist, dropRoll hist cur prev, none)
  | some (rows, cols, bl) =>
      let usable := usableFor cfg prev
      if usable.isEmpty then (hist, dropRoll hist cur prev, none)
      else
        let trie := build_trie_from_words usable (max rows cols) 2
        match tryAttempts cfg trie rows cols bl cur 20 0 with
        | none => (hist, dropRoll hist cur prev, none)
        | some g =>
            let fg := build_final_grid rows cols bl g
            let entries := compute_entries rows cols bl fg
            let today := dedupFirst ((entries.map fun e => lowStr e.answer).filter
              fun w => !w.isEmpty)
            let hist' := (cur, today) :: hist
            let prev' := prev ++ today.filter fun w => !prev.contains w
            (hist', dropRoll hist' cur prev', some (fg, today))

/-- The initial `previously_used`: union of the fetched history of the 100
days before the start date (`for i in range(100, 0, -1)`). -/
def initialPrev (hist0 : List (Nat × List Word)) (start : Nat) : List Word :=
  (List.range 100).foldl
    (fun p i => p ++ (histGet hist0 (start - 100 + i)).filter fun w => !p.contains w) []

/-- The date loop of `main` from `start` to `endd` (inclusive): returns the
final history map, the final `previously_used`, and the generated records. -/
def genRunAux (cfg : GenCfg) : Nat → Nat → List (Nat × List Word) → List Word →
    List (Nat × List Word) → List (Nat × List Word) × List Word × List (Nat × List Word)
  | 0, _, hist, prev, recs => (hist, prev, recs.reverse)
  | fuel + 1, cur, hist, prev, recs =>
      let s := genStep cfg cur hist prev
      genRunAux cfg fuel (cur + 1) s.1 s.2.1
        (match s.2.2 with
         | some r => (cur, r.2) :: recs
         | none => recs)

def genRun (cfg : GenCfg) (hist0 : List (Nat × List Word)) (start endd : Nat) :
    List (Nat × List Word) × List Word × List (Nat × List Word) :=
  genRunAux cfg (endd + 1 - start) start hist0 (initialPrev hist0 start) []

/-! ### Concrete instances (scenario inputs) -/

/-- The S1 word set {"it", "is", "io", "ts"}. -/
def wordsS1 : List Word := [['i', 't'], ['i', 's'], ['i', 'o'], ['t', 's']]

/-- A word set that does fill the 2x2 template: {"to", "an", "ta", "on"}. -/
def wordsTO : List Word := [['t', 'o'], ['a', 'n'], ['t', 'a'], ['o', 'n']]

/-- The dictionary {"ab", "ba"} for the isolated-cell template. -/
def wordsAB : List Word := [['a', 'b'], ['b', 'a']]

/-- The solved 2x2 grid the solver produces from `wordsTO` under the
identity candidate order. -/
def gridTO : Grid := [[some 't', some 'o'], [some 'a', some 'n']]

/-- A generation configuration: base dictionary `wordsTO`, no exclusions,
the blank 2x2 template on every weekday, identity shuffle. -/
def cfg6 : GenCfg := ⟨wordsTO, [], fun _ => some (2, 2, []), fun _ _ _ l => l⟩

/-- An initial history in which the word "to" sits on two dates of the
100-day window before date 100 (dates 0 and 50). -/
def hist6 : List (Nat × List Word) := [(0, [['t', 'o']]), (50, [['t', 'o']])]

/-! ## Lemmas: children maps -/

theorem findC_setC_self (l : List (Char × Trie)) (c : Char) (t : Trie) :
    findC (setC l c t) c = some t := by
  induction l with
  | nil => simp [setC, findC]
  | cons p l ih =>
      obtain ⟨a, u⟩ := p
      by_cases h : a = c
      · simp [setC, h, findC]
      · simp [setC, h, findC, ih]

theorem findC_setC_ne (l : List (Char × Trie)) (a c : Char) (t : Trie) (h : a ≠ c) :
    findC (setC l c t) a = findC l a := by
  induction l with
  | nil => simp [setC, findC, Ne.symm h]
  | cons p l ih =>
      obtain ⟨b, u⟩ := p
      by_cases hb : b = c
      · subst hb
        simp [setC, findC, Ne.symm h]
      · simp [setC, hb, findC]
        split <;> simp_all

theorem setC_setC_self (l : List (Char × Trie)) (c : Char) (t u : Trie) :
    setC (setC l c t) c u = setC l c u := by
  induction l with
  | nil => simp [setC]
  | cons p l ih =>
      obtain ⟨a, v⟩ := p
      by_cases h : a = c <;> simp [setC, h, ih]

theorem setC_findC_self (l : List (Char × Trie)) (c : Char) (t : Trie)
    (h : findC l c = some t) : setC l c t = l := by
  induction l with
  | nil => simp [findC] at h
  | cons p l ih =>
      obtain ⟨a, v⟩ := p
      by_cases ha : a = c
      · simp [findC, ha] at h
        simp [setC, ha, h]
      · simp [findC, ha] at h
        simp [setC, ha, ih h]

theorem setC_comm (l : List (Char × Trie)) (a b : Char) (x y : Trie) (hab : a ≠ b)
    (hb : (findC l b).isSome) : setC (setC l a x) b y = setC (setC l b y) a x := by
  induction l with
  | nil => simp [findC] at hb
  | cons p l ih =>
      obtain ⟨k, v⟩ := p
      by_cases hka : k = a
      · subst hka
        have hkb : ¬ (k = b) := hab
        simp [setC, hkb]
      · by_cases hkb : k = b
        · subst hkb
          simp [setC, hka, Ne.symm hab]
        · simp [findC, hkb] at hb
          simp [setC, hka, hkb, ih hb]

/-! ## Lemmas: path observables of the trie operations -/

theorem cntAt_cons (t : Trie) (c : Char) (p : Word) :
    t.cntAt (c :: p) = (match findC t.children c with
      | none => 0
      | some child => child.cntAt p) := rfl

theorem weAt_cons (t : Trie) (c : Char) (p : Word) :
    t.weAt (c :: p) = (match findC t.children c with
      | none => false
      | some child => child.weAt p) := rfl

theorem exAt_cons (t : Trie) (c : Char) (p : Word) :
    t.exAt (c :: p) = (match findC t.children c with
      | none => false
      | some child => child.exAt p) := rfl

theorem cntAt_empty (p : Word) : Trie.empty.cntAt p = 0 := by
  cases p with
  | nil => rfl
  | cons c p => rfl

theorem weAt_empty (p : Word) : Trie.empty.weAt p = false := by
  cases p with
  | nil => rfl
  | cons c p => rfl

theorem isPre_nil (w : Word) : isPre [] w = true := by
  cases w <;> rfl

theorem isPre_cons (c : Char) (p : Word) (a : Char) (w : Word) :
    isPre (c :: p) (a :: w) = (decide (c = a) && isPre p w) := by
  by_cases h : c = a <;> simp [isPre, List.isPrefixOf, h]

theorem isPre_cons_nil (c : Char) (p : Word) : isPre (c :: p) [] = false := rfl

theorem decide_cons_eq (c a : Char) (p w : Word) :
    decide (c :: p = a :: w) = (decide (c = a) && decide (p = w)) := by
  by_cases h1 : c = a <;> by_cases h2 : p = w <;> simp [h1, h2]

/-- Effect of `add_word` on counts: exactly the nodes on the path of `w`
(every prefix of `w`, the node itself included) gain 1. -/
theorem cntAt_add (t : Trie) (w p : Word) :
    (t.add_word w).cntAt p = t.cntAt p + (if isPre p w then 1 else 0) := by
  induction w generalizing t p with
  | nil =>
      cases t with
      | node cnt we ch =>
          cases p with
          | nil => simp [Trie.add_word, Trie.cntAt, Trie.count, isPre_nil]
          | cons c p =>
              show (Trie.node (cnt + 1) true ch).cntAt (c :: p) = _
              rcases h : findC ch c with _ | child <;>
                simp [cntAt_cons, Trie.children, h, isPre_cons_nil]
  | cons a w ih =>
      cases t with
      | node cnt we ch =>
          show (Trie.node (cnt + 1) we
            (setC ch a (((findC ch a).getD Trie.empty).add_word w))).cntAt p = _
          cases p with
          | nil => simp [Trie.cntAt, Trie.count, isPre_nil]
          | cons c p =>
              by_cases hca : c = a
              · subst hca
                rcases h : findC ch c with _ | child <;>
                  simp [cntAt_cons, Trie.children, findC_setC_self, h, ih,
                    cntAt_empty, isPre_cons]
              · have hset : ∀ x : Trie, findC (setC ch a x) c = findC ch c :=
                  fun x => findC_setC_ne _ _ _ _ hca
                rcases h : findC ch c with _ | child <;>
                  simp [cntAt_cons, Trie.children, hset, h, isPre_cons, hca]

/-- Effect of `add_word` on end-of-word marks: exactly the terminal node
gains the mark. -/
theorem weAt_add (t : Trie) (w p : Word) :
    (t.add_word w).weAt p = (t.weAt p || decide (p = w)) := by
  induction w generalizing t p with
  | nil =>
      cases t with
      | node cnt we ch =>
          cases p with
          | nil => simp [Trie.add_word, Trie.weAt, Trie.wordEnd]
          | cons c p =>
              show (Trie.node (cnt + 1) true ch).weAt (c :: p) = _
              rcases h : findC ch c with _ | child <;>
                simp [weAt_cons, Trie.children, h]
  | cons a w ih =>
      cases t with
      | node cnt we ch =>
          show (Trie.node (cnt + 1) we
            (setC ch a (((findC ch a).getD Trie.empty).add_word w))).weAt p = _
          cases p with
          | nil => simp [Trie.weAt, Trie.wordEnd]
          | cons c p =>
              by_cases hca : c = a
              · subst hca
                rcases h : findC ch c with _ | child <;>
                  simp [weAt_cons, Trie.children, findC_setC_self, h, ih,
                    weAt_empty, decide_cons_eq]
              · have hset : ∀ x : Trie, findC (setC ch a x) c = findC ch c :=
                  fun x => findC_setC_ne _ _ _ _ hca
                rcases h : findC ch c with _ | child <;>
                  simp [weAt_cons, Trie.children, hset, h, decide_cons_eq, hca]

/-- Effect of `add_word` on node existence: exactly the path of `w` is created. -/
theorem exAt_add (t : Trie) (w p : Word) :
    (t.add_word w).exAt p = (t.exAt p || isPre p w) := by
  induction w generalizing t p with
  | nil =>
      cases t with
      | node cnt we ch =>
          cases p with
          | nil => simp [Trie.add_word, Trie.exAt, isPre_nil]
          | cons c p =>
              show (Trie.node (cnt + 1) true ch).exAt (c :: p) = _
              rcases h : findC ch c with _ | child <;>
                simp [exAt_cons, Trie.children, h, isPre_cons_nil]
  | cons a w ih =>
      cases t with
      | node cnt we ch =>
          show (Trie.node (cnt + 1) we
            (setC ch a (((findC ch a).getD Trie.empty).add_word w))).exAt p = _
          cases p with
          | nil => simp [Trie.exAt, isPre_nil]
          | cons c p =>
              by_cases hca : c = a
              · subst hca
                rcases h : findC ch c with _ | child <;>
                  simp [exAt_cons, Trie.children, findC_setC_self, h, ih,
                    isPre_cons]
                · cases p with
                  | nil => simp [Trie.exAt, isPre_nil]
                  | cons c2 p2 => simp [exAt_cons, Trie.children, findC, isPre]
              · have hset : ∀ x : Trie, findC (setC ch a x) c = findC ch c :=
                  fun x => findC_setC_ne _ _ _ _ hca
                rcases h : findC ch c with _ | child <;>
                  simp [exAt_cons, Trie.children, hset, h, isPre_cons, hca]

theorem remove_word_cons (cnt : Int) (we : Bool) (ch : List (Char × Trie)) (a : Char)
    (w : Word) :
    (Trie.node cnt we ch).remove_word (a :: w) = (match findC ch a with
      | none => Trie.node cnt we ch
      | some child => Trie.node (cnt - 1) we (setC ch a (child.remove_word w))) := rfl

theorem add_word_cons (cnt : Int) (we : Bool) (ch : List (Char × Trie)) (a : Char)
    (w : Word) :
    (Trie.node cnt we ch).add_word (a :: w)
      = Trie.node (cnt + 1) we (setC ch a (((findC ch a).getD Trie.empty).add_word w)) := rfl

theorem add_word_nil (cnt : Int) (we : Bool) (ch : List (Char × Trie)) :
    (Trie.node cnt we ch).add_word [] = Trie.node (cnt + 1) true ch := rfl

theorem remove_word_nil (cnt : Int) (we : Bool) (ch : List (Char × Trie)) :
    (Trie.node cnt we ch).remove_word [] = Trie.node (cnt - 1) we ch := rfl

/-- Effect of `remove_word` on counts, when the word's full path is present:
exactly the nodes on the path lose 1. -/
theorem cntAt_remove (t : Trie) (w p : Word) (hex : t.exAt w = true) :
    (t.remove_word w).cntAt p = t.cntAt p - (if isPre p w then 1 else 0) := by
  induction w generalizing t p with
  | nil =>
      cases t with
      | node cnt we ch =>
          cases p with
          | nil => simp [Trie.remove_word, Trie.cntAt, Trie.count, isPre_nil]
          | cons c p =>
              rw [remove_word_nil]
              rcases h : findC ch c with _ | child <;>
                simp [cntAt_cons, Trie.children, h, isPre_cons_nil]
  | cons a w ih =>
      cases t with
      | node cnt we ch =>
          rcases ha : findC ch a with _ | child
          · rw [exAt_cons] at hex
            simp [Trie.children, ha] at hex
          · have hchild : child.exAt w = true := by
              rw [exAt_cons] at hex
              simpa [Trie.children, ha] using hex
            rw [remove_word_cons, ha]
            cases p with
            | nil => simp [Trie.cntAt, Trie.count, isPre_nil]
            | cons c p =>
                by_cases hca : c = a
                · subst hca
                  simp [cntAt_cons, Trie.children, findC_setC_self, ha,
                    ih _ _ hchild, isPre_cons]
                · have hset : ∀ x : Trie, findC (setC ch a x) c = findC ch c :=
                    fun x => findC_setC_ne _ _ _ _ hca
                  rcases h : findC ch c with _ | child2 <;>
                    simp [cntAt_cons, Trie.children, hset, h, isPre_cons, hca]

/-- `remove_word` does not change end-of-word marks (when the path is present;
in general it never sets or clears a mark). -/
theorem weAt_remove (t : Trie) (w p : Word) (hex : t.exAt w = true) :
    (t.remove_word w).weAt p = t.weAt p := by
  induction w generalizing t p with
  | nil =>
      cases t with
      | node cnt we ch =>
          cases p with
          | nil => simp [Trie.remove_word, Trie.weAt, Trie.wordEnd]
          | cons c p =>
              rw [remove_word_nil]
              rcases h : findC ch c with _ | child <;>
                simp [weAt_cons, Trie.children, h]
  | cons a w ih =>
      cases t with
      | node cnt we ch =>
          rcases ha : findC ch a with _ | child
          · rw [exAt_cons] at hex
            simp [Trie.children, ha] at hex
          · have hchild : child.exAt w = true := by
              rw [exAt_cons] at hex
              simpa [Trie.children, ha] using hex
            rw [remove_word_cons, ha]
            cases p with
            | nil => simp [Trie.weAt, Trie.wordEnd]
            | cons c p =>
                by_cases hca : c = a
                · subst hca
                  simp [weAt_cons, Trie.children, findC_setC_self, ha, ih _ _ hchild]
                · have hset : ∀ x : Trie, findC (setC ch a x) c = findC ch c :=
                    fun x => findC_setC_ne _ _ _ _ hca
                  rcases h : findC ch c with _ | child2 <;>
                    simp [weAt_cons, Trie.children, hset, h]

/-- `remove_word` does not create or delete nodes (when the path is present). -/
theorem exAt_remove (t : Trie) (w p : Word) (hex : t.exAt w = true) :
    (t.remove_word w).exAt p = t.exAt p := by
  induction w generalizing t p with
  | nil =>
      cases t with
      | node cnt we ch =>
          cases p with
          | nil => simp [Trie.remove_word, Trie.exAt]
          | cons c p =>
              rw [remove_word_nil]
              rcases h : findC ch c with _ | child <;>
                simp [exAt_cons, Trie.children, h]
  | cons a w ih =>
      cases t with
      | node cnt we ch =>
          rcases ha : findC ch a with _ | child
          · rw [exAt_cons] at hex
            simp [Trie.children, ha] at hex
          · have hchild : child.exAt w = true := by
              rw [exAt_cons] at hex
              simpa [Trie.children, ha] using hex
            rw [remove_word_cons, ha]
            cases p with
            | nil => simp [Trie.exAt]
            | cons c p =>
                by_cases hca : c = a
                · subst hca
                  simp [exAt_cons, Trie.children, findC_setC_self, ha, ih _ _ hchild]
                · have hset : ∀ x : Trie, findC (setC ch a x) c = findC ch c :=
                    fun x => findC_setC_ne _ _ _ _ hca
                  rcases h : findC ch c with _ | child2 <;>
                    simp [exAt_cons, Trie.children, hset, h]

/-- `add_word` exactly undoes `remove_word` on a word whose path is present
and whose terminal node is marked (both guaranteed by a passing `is_word`). -/
theorem add_remove_cancel (t : Trie) (w : Word) (hex : t.exAt w = true)
    (hwe : t.weAt w = true) : (t.remove_word w).add_word w = t := by
  induction w generalizing t with
  | nil =>
      cases t with
      | node cnt we ch =>
          have hwe' : we = true := hwe
          subst hwe'
          show Trie.node (cnt - 1 + 1) true ch = Trie.node cnt true ch
          congr 1
          omega
  | cons a w ih =>
      cases t with
      | node cnt we ch =>
          rcases ha : findC ch a with _ | child
          · rw [exAt_cons] at hex
            simp [Trie.children, ha] at hex
          · have hchild : child.exAt w = true := by
              rw [exAt_cons] at hex
              simpa [Trie.children, ha] using hex
            have hchildwe : child.weAt w = true := by
              rw [weAt_cons] at hwe
              simpa [Trie.children, ha] using hwe
            rw [remove_word_cons, ha, add_word_cons, findC_setC_self]
            simp only [Option.getD_some]
            rw [setC_setC_self, ih child hchild hchildwe, setC_findC_self ch a child ha]
            congr 1
            omega

/-- `add_word` and `remove_word` on (possibly different) words commute,
provided the removed word's path is present. -/
theorem add_remove_comm (t : Trie) (w1 w2 : Word) (hex : t.exAt w2 = true) :
    (t.remove_word w2).add_word w1 = (t.add_word w1).remove_word w2 := by
  induction w1 generalizing t w2 with
  | nil =>
      cases t with
      | node cnt we ch =>
          cases w2 with
          | nil =>
              rw [remove_word_nil, add_word_nil, add_word_nil, remove_word_nil]
              congr 1
              omega
          | cons b w2 =>
              rcases hb : findC ch b with _ | childB
              · rw [exAt_cons] at hex
                simp [Trie.children, hb] at hex
              · rw [remove_word_cons, hb, add_word_nil, add_word_nil,
                  remove_word_cons, hb]
                congr 1
                omega
  | cons a w1 ih =>
      cases t with
      | node cnt we ch =>
          cases w2 with
          | nil =>
              rw [remove_word_nil, add_word_cons, add_word_cons, remove_word_nil]
              congr 1
              omega
          | cons b w2 =>
              rcases hb : findC ch b with _ | childB
              · rw [exAt_cons] at hex
                simp [Trie.children, hb] at hex
              · have hchB : childB.exAt w2 = true := by
                  rw [exAt_cons] at hex
                  simpa [Trie.children, hb] using hex
                by_cases hab : a = b
                · subst hab
                  rw [remove_word_cons, hb, add_word_cons, findC_setC_self,
                    add_word_cons, remove_word_cons, findC_setC_self]
                  dsimp only
                  rw [hb]
                  simp only [Option.getD_some]
                  rw [setC_setC_self, setC_setC_self, ih childB w2 hchB]
                  congr 1
                  omega
                · rw [remove_word_cons, hb, add_word_cons,
                    findC_setC_ne _ _ _ _ hab, add_word_cons, remove_word_cons,
                    findC_setC_ne _ _ _ _ (Ne.symm hab), hb]
                  dsimp only
                  rw [setC_comm _ _ _ _ _ hab (by rw [hb]; rfl)]
                  congr 1
                  omega

/-! ## Lemmas: folded trie operations -/

theorem remAll_nil (t : Trie) : remAll t [] = t := rfl

theorem remAll_cons (t : Trie) (w : Word) (L : List Word) :
    remAll t (w :: L) = remAll (t.remove_word w) L := rfl

theorem addAll_nil (t : Trie) : addAll t [] = t := rfl

theorem addAll_cons (t : Trie) (w : Word) (L : List Word) :
    addAll t (w :: L) = addAll (t.add_word w) L := rfl

theorem exAt_remAll (L : List Word) (t : Trie) (hL : ∀ v ∈ L, t.exAt v = true) (p : Word) :
    (remAll t L).exAt p = t.exAt p := by
  induction L generalizing t with
  | nil => rfl
  | cons v L ih =>
      have hv : t.exAt v = true := hL v (by simp)
      rw [remAll_cons, ih _ (fun u hu => by rw [exAt_remove _ _ _ hv]; exact hL u (by simp [hu])),
        exAt_remove _ _ _ hv]

theorem weAt_remAll (L : List Word) (t : Trie) (hL : ∀ v ∈ L, t.exAt v = true) (p : Word) :
    (remAll t L).weAt p = t.weAt p := by
  induction L generalizing t with
  | nil => rfl
  | cons v L ih =>
      have hv : t.exAt v = true := hL v (by simp)
      rw [remAll_cons, ih _ (fun u hu => by rw [exAt_remove _ _ _ hv]; exact hL u (by simp [hu])),
        weAt_remove _ _ _ hv]

theorem cntAt_remAll (L : List Word) (t : Trie) (hL : ∀ v ∈ L, t.exAt v = true) (p : Word) :
    (remAll t L).cntAt p = t.cntAt p - (L.countP (fun v => isPre p v) : Int) := by
  induction L generalizing t with
  | nil => simp [remAll_nil]
  | cons v L ih =>
      have hv : t.exAt v = true := hL v (by simp)
      rw [remAll_cons,
        ih _ (fun u hu => by rw [exAt_remove _ _ _ hv]; exact hL u (by simp [hu])),
        cntAt_remove _ _ _ hv, List.countP_cons]
      by_cases h : isPre p v <;> simp [h] <;> push_cast <;> ring

theorem cntAt_addAll (L : List Word) (t : Trie) (p : Word) :
    (addAll t L).cntAt p = t.cntAt p + (L.countP (fun v => isPre p v) : Int) := by
  induction L generalizing t with
  | nil => simp [addAll_nil]
  | cons v L ih =>
      rw [addAll_cons, ih, cntAt_add, List.countP_cons]
      by_cases h : isPre p v <;> simp [h] <;> push_cast <;> ring

theorem weAt_addAll (L : List Word) (t : Trie) (p : Word) :
    (addAll t L).weAt p = (t.weAt p || decide (p ∈ L)) := by
  induction L generalizing t with
  | nil => simp [addAll_nil]
  | cons v L ih =>
      rw [addAll_cons, ih, weAt_add]
      by_cases h : p = v <;> by_cases h2 : p ∈ L <;> simp [h, h2]

theorem exAt_addAll (L : List Word) (t : Trie) (p : Word) :
    (addAll t L).exAt p = (t.exAt p || L.any (fun v => isPre p v)) := by
  induction L generalizing t with
  | nil => simp [addAll_nil]
  | cons v L ih =>
      rw [addAll_cons, ih, exAt_add]
      by_cases h : isPre p v <;> simp [h, Bool.or_assoc, Bool.or_comm]

theorem add_remAll_comm (L : List Word) (t : Trie) (w : Word)
    (hL : ∀ v ∈ L, t.exAt v = true) :
    (remAll t L).add_word w = remAll (t.add_word w) L := by
  induction L generalizing t with
  | nil => rfl
  | cons v L ih =>
      have hv : t.exAt v = true := hL v (by simp)
      rw [remAll_cons,
        ih _ (fun u hu => by rw [exAt_remove _ _ _ hv]; exact hL u (by simp [hu])),
        add_remove_comm _ _ _ hv, remAll_cons]

/-- The undo loop exactly reverses the commit loop on the trie: adding back,
in the same order, words that were removed in that order restores the trie,
provided each word passed `is_word` beforehand (path present, mark set). -/
theorem addAll_remAll_cancel (L : List Word) (t : Trie)
    (hL : ∀ w ∈ L, t.exAt w = true ∧ t.weAt w = true) :
    addAll (remAll t L) L = t := by
  induction L generalizing t with
  | nil => rfl
  | cons w L ih =>
      have hw := hL w (by simp)
      have hLex : ∀ v ∈ L, (t.remove_word w).exAt v = true := fun u hu => by
        rw [exAt_remove _ _ _ hw.1]
        exact (hL u (by simp [hu])).1
      rw [remAll_cons, addAll_cons, add_remAll_comm _ _ _ hLex,
        add_remove_cancel _ _ hw.1 hw.2]
      exact ih t fun u hu => hL u (by simp [hu])

theorem removeList_reverse_append (L M : List Word) (t : Trie) :
    removeList (L.reverse ++ M) t = remAll (removeList M t) L := by
  induction L generalizing M with
  | nil => rfl
  | cons w L ih =>
      have : (w :: L).reverse ++ M = L.reverse ++ (w :: M) := by simp
      rw [this, ih, remAll_cons]
      rfl

/-- `is_word` in terms of the path observables: full path present, terminal
marked, terminal count positive. -/
theorem is_word_eq (t : Trie) (w : Word) :
    t.is_word w = (t.exAt w && t.weAt w && decide ((0 : Int) < t.cntAt w)) := by
  induction w generalizing t with
  | nil => simp [Trie.is_word, Trie.exAt, Trie.weAt, Trie.cntAt]
  | cons c w ih =>
      show (match findC t.children c with
        | none => false
        | some child => child.is_word w) = _
      rcases h : findC t.children c with _ | child <;>
        simp [exAt_cons, weAt_cons, cntAt_cons, h, ih]

/-! ## Lemmas: grid cells -/

theorem getD_set_self {α : Type} (l : List α) (i : Nat) (v d : α)
    (h : i < l.length) : (l.set i v).getD i d = v := by
  rw [List.getD_eq_getElem?_getD, List.getElem?_set_self (by simpa using h)]
  rfl

theorem getD_set_ne {α : Type} (l : List α) (i j : Nat) (v d : α)
    (h : i ≠ j) : (l.set i v).getD j d = l.getD j d := by
  rw [List.getD_eq_getElem?_getD, List.getElem?_set_ne h, ← List.getD_eq_getElem?_getD]

theorem set_getD {α : Type} (l : List α) (i : Nat) (d : α) :
    l.set i (l.getD i d) = l := by
  induction l generalizing i with
  | nil => rfl
  | cons a l ih =>
      cases i with
      | zero => rfl
      | succ i =>
          rw [List.getD_cons_succ]
          show a :: l.set i (l.getD i d) = a :: l
          rw [ih]

theorem set_oob {α : Type} (l : List α) (i : Nat) (v : α)
    (h : l.length ≤ i) : l.set i v = l := by
  induction l generalizing i with
  | nil => rfl
  | cons a l ih =>
      cases i with
      | zero => simp at h
      | succ i =>
          show a :: l.set i v = a :: l
          rw [ih _ (by simpa using h)]

theorem getCell_setCell_self (g : Grid) (r c : Nat) (v : Option Char)
    (hr : r < g.length) (hc : c < (g.getD r []).length) :
    getCell (setCell g r c v) r c = v := by
  unfold getCell setCell
  rw [getD_set_self _ _ _ _ hr, getD_set_self _ _ _ _ hc]

theorem getCell_setCell_ne (g : Grid) (r c r' c' : Nat) (v : Option Char)
    (h : ¬(r' = r ∧ c' = c)) :
    getCell (setCell g r c v) r' c' = getCell g r' c' := by
  unfold getCell setCell
  by_cases hr : r' = r
  · subst hr
    have hc : c ≠ c' := fun hcc => h ⟨rfl, hcc.symm⟩
    by_cases hrl : r' < g.length
    · rw [getD_set_self _ _ _ _ hrl, getD_set_ne _ _ _ _ _ hc]
    · rw [set_oob _ _ _ (by omega)]
  · rw [getD_set_ne _ _ _ _ _ (fun hh => hr hh.symm)]

theorem setCell_restore (g : Grid) (r c : Nat) (h : getCell g r c = none) :
    setCell g r c none = g := by
  unfold setCell
  unfold getCell at h
  rw [← h, set_getD, set_getD]

theorem setCell_setCell (g : Grid) (r c : Nat) (v v' : Option Char) :
    setCell (setCell g r c v) r c v' = setCell g r c v' := by
  unfold setCell
  by_cases hr : r < g.length
  · rw [getD_set_self _ _ _ _ hr, List.set_set, List.set_set]
  · have hg : ∀ row : List (Option Char), g.set r row = g :=
      fun row => set_oob _ _ _ (by omega)
    simp only [hg]

theorem length_setCell (g : Grid) (r c : Nat) (v : Option Char) :
    (setCell g r c v).length = g.length := by
  unfold setCell
  exact List.length_set g r _

theorem WFGrid_setCell (rows cols : Nat) (g : Grid) (r c : Nat) (v : Option Char)
    (h : WFGrid rows cols g) : WFGrid rows cols (setCell g r c v) := by
  obtain ⟨h1, h2⟩ := h
  refine ⟨by rw [length_setCell, h1], ?_⟩
  intro row hrow
  unfold setCell at hrow
  by_cases hr : r < g.length
  · rcases List.mem_or_eq_of_mem_set hrow with hmem | heq
    · exact h2 row hmem
    · subst heq
      rw [List.length_set]
      exact h2 _ (by
        rw [List.getD_eq_getElem?_getD, List.getElem?_eq_getElem (by omega)]
        exact List.getElem_mem _)
  · rw [set_oob _ _ _ (by omega)] at hrow
    exact h2 row hrow

/-! ## Lemmas: commit and undo of the solver -/

theorem commitSt_eq (r c : Nat) (ch : Char) (ws : List Word) (st : St) :
    commitSt r c ch ws st
      = ⟨setCell st.grid r c (some ch), ws.reverse ++ st.used, remAll st.trie ws⟩ := by
  unfold commitSt
  suffices h : ∀ (s : St),
      ws.foldl (fun s w => ⟨s.grid, w :: s.used, s.trie.remove_word w⟩) s
        = ⟨s.grid, ws.reverse ++ s.used, remAll s.trie ws⟩ by
    exact h _
  induction ws with
  | nil => intro s; rfl
  | cons w ws ih =>
      intro s
      show ws.foldl _ (⟨s.grid, w :: s.used, s.trie.remove_word w⟩ : St) = _
      rw [ih]
      simp [remAll_cons]

theorem undoSt_eq (r c : Nat) (ws : List Word) (st : St) :
    undoSt r c ws st
      = ⟨setCell st.grid r c none, ws.foldl (fun u w => u.erase w) st.used,
          addAll st.trie ws⟩ := by
  unfold undoSt
  suffices h : ∀ (s : St),
      ws.foldl (fun s w => ⟨s.grid, s.used.erase w, s.trie.add_word w⟩) s
        = ⟨s.grid, ws.foldl (fun u w => u.erase w) s.used, addAll s.trie ws⟩ by
    rw [h st]
  induction ws with
  | nil => intro s; rfl
  | cons w ws ih =>
      intro s
      show ws.foldl _ (⟨s.grid, s.used.erase w, s.trie.add_word w⟩ : St) = _
      rw [ih]
      simp [addAll_cons]

theorem eraseFold_restore (ws : List Word) (u : List Word) (hnd : ws.Nodup)
    (hdisj : ∀ w ∈ ws, w ∉ u) :
    ws.foldl (fun l w => l.erase w) (ws.reverse ++ u) = u := by
  induction ws generalizing u with
  | nil => rfl
  | cons w ws ih =>
      have hw : w ∉ ws.reverse := by
        simp only [List.mem_reverse]
        exact (List.nodup_cons.mp hnd).1
      have step : ((w :: ws).reverse ++ u).erase w = ws.reverse ++ u := by
        rw [List.reverse_cons, List.append_assoc, List.erase_append_right _ hw]
        simp [List.erase_cons_head]
      show ws.foldl _ (((w :: ws).reverse ++ u).erase w) = u
      rw [step]
      exact ih u (List.nodup_cons.mp hnd).2 fun v hv => hdisj v (by simp [hv])

/-! ## Lemmas: well-formed tries and `next_letters` membership -/

theorem mem_of_findC {l : List (Char × Trie)} {c : Char} {u : Trie}
    (h : findC l c = some u) : (c, u) ∈ l := by
  induction l with
  | nil => simp [findC] at h
  | cons p l ih =>
      obtain ⟨a, v⟩ := p
      by_cases ha : a = c
      · subst ha
        simp [findC] at h
        simp [h]
      · simp [findC, ha] at h
        simp [ih h]

theorem findC_of_mem {l : List (Char × Trie)} {c : Char} {u : Trie}
    (hnd : (l.map Prod.fst).Nodup) (h : (c, u) ∈ l) : findC l c = some u := by
  induction l with
  | nil => simp at h
  | cons p l ih =>
      obtain ⟨a, v⟩ := p
      rcases List.mem_cons.mp h with heq | hmem
      · rw [Prod.mk.injEq] at heq
        simp [findC, heq.1, heq.2]
      · by_cases ha : a = c
        · subst ha
          exfalso
          have : a ∈ l.map Prod.fst := by
            exact List.mem_map.mpr ⟨(a, u), hmem, rfl⟩
          exact (List.nodup_cons.mp (by simpa using hnd)).1 this
        · simp [findC, ha]
          exact ih (List.nodup_cons.mp (by simpa using hnd)).2 hmem

theorem mem_setC {l : List (Char × Trie)} {c : Char} {t : Trie} {p : Char × Trie}
    (h : p ∈ setC l c t) : p ∈ l ∨ p = (c, t) := by
  induction l with
  | nil => simpa [setC] using h
  | cons q l ih =>
      obtain ⟨a, v⟩ := q
      by_cases ha : a = c
      · subst ha
        simp [setC] at h
        rcases h with h | h
        · subst h; right; rfl
        · left; simp [h]
      · simp [setC, ha] at h
        rcases h with h | h
        · left; simp [h]
        · rcases ih h with h2 | h2
          · left; simp [h2]
          · right; exact h2

theorem keys_setC_mem (l : List (Char × Trie)) (c : Char) (t : Trie) (x : Char) :
    x ∈ (setC l c t).map Prod.fst ↔ x ∈ l.map Prod.fst ∨ x = c := by
  induction l with
  | nil => simp [setC]
  | cons q l ih =>
      obtain ⟨a, v⟩ := q
      by_cases ha : a = c
      · subst ha
        simp [setC]
        tauto
      · simp [setC, ha, ih]
        tauto

theorem nodup_keys_setC (l : List (Char × Trie)) (c : Char) (t : Trie)
    (hnd : (l.map Prod.fst).Nodup) : ((setC l c t).map Prod.fst).Nodup := by
  induction l with
  | nil => simp [setC]
  | cons q l ih =>
      obtain ⟨a, v⟩ := q
      by_cases ha : a = c
      · subst ha
        simpa [setC] using hnd
      · simp only [setC, if_neg ha, List.map_cons, List.nodup_cons] at hnd ⊢
        refine ⟨fun hmem => ?_, ih hnd.2⟩
        rcases (keys_setC_mem l c t a).mp hmem with h | h
        · exact hnd.1 h
        · exact ha h

theorem TrieWF_empty : TrieWF Trie.empty := by
  exact TrieWF.node 0 false [] (by simp) (by simp)

theorem TrieWF_add (t : Trie) (w : Word) (hwf : TrieWF t) : TrieWF (t.add_word w) := by
  induction w generalizing t with
  | nil =>
      cases t with
      | node cnt we ch =>
          rw [add_word_nil]
          cases hwf with
          | node _ _ _ hnd hall => exact TrieWF.node _ _ _ hnd hall
  | cons a w ih =>
      cases t with
      | node cnt we ch =>
          rw [add_word_cons]
          cases hwf with
          | node _ _ _ hnd hall =>
              refine TrieWF.node _ _ _ (nodup_keys_setC _ _ _ hnd) ?_
              intro p hp
              rcases mem_setC hp with hmem | heq
              · exact hall p hmem
              · subst heq
                rcases hfa : findC ch a with _ | child
                · simp only [hfa, Option.getD_none]
                  exact ih Trie.empty TrieWF_empty
                · simp only [hfa, Option.getD_some]
                  exact ih child (hall (a, child) (mem_of_findC hfa))

theorem TrieWF_remove (t : Trie) (w : Word) (hwf : TrieWF t) :
    TrieWF (t.remove_word w) := by
  induction w generalizing t with
  | nil =>
      cases t with
      | node cnt we ch =>
          rw [remove_word_nil]
          cases hwf with
          | node _ _ _ hnd hall => exact TrieWF.node _ _ _ hnd hall
  | cons a w ih =>
      cases t with
      | node cnt we ch =>
          rcases hfa : findC ch a with _ | child
          · rw [remove_word_cons, hfa]
            exact hwf
          · rw [remove_word_cons, hfa]
            cases hwf with
            | node _ _ _ hnd hall =>
                refine TrieWF.node _ _ _ (nodup_keys_setC _ _ _ hnd) ?_
                intro p hp
                rcases mem_setC hp with hmem | heq
                · exact hall p hmem
                · subst heq
                  exact ih child (hall (a, child) (mem_of_findC hfa))

theorem TrieWF_addAll (L : List Word) (t : Trie) (hwf : TrieWF t) :
    TrieWF (addAll t L) := by
  induction L generalizing t with
  | nil => exact hwf
  | cons w L ih => exact ih _ (TrieWF_add _ _ hwf)

theorem TrieWF_remAll (L : List Word) (t : Trie) (hwf : TrieWF t) :
    TrieWF (remAll t L) := by
  induction L generalizing t with
  | nil => exact hwf
  | cons w L ih => exact ih _ (TrieWF_remove _ _ hwf)

theorem next_letters_nil (t : Trie) :
    t.next_letters [] = (t.children.filter (fun p => 0 < p.2.count)).map Prod.fst := rfl

theorem next_letters_cons (t : Trie) (c : Char) (P : Word) :
    t.next_letters (c :: P) = (match findC t.children c with
      | none => []
      | some child => if child.count = 0 then [] else child.next_letters P) := rfl

/-- Membership in `is_valid_prefix` in terms of path observables: every
nonempty prefix of the walk exists with nonzero count, and the extended path
exists with positive count. -/
theorem mem_next_letters (t : Trie) (hwf : TrieWF t) (P : Word) (ch : Char) :
    ch ∈ t.next_letters P ↔
      ((∀ (a : Char) (q : Word), (a :: q) <+: P →
          t.exAt (a :: q) = true ∧ t.cntAt (a :: q) ≠ 0) ∧
        t.exAt (P ++ [ch]) = true ∧ 0 < t.cntAt (P ++ [ch])) := by
  induction P generalizing t with
  | nil =>
      rw [next_letters_nil]
      cases t with
      | node cnt we chl =>
          cases hwf with
          | node _ _ _ hnd hall =>
              constructor
              · intro hmem
                rcases List.mem_map.mp hmem with ⟨pu, hin, hfst⟩
                obtain ⟨a, u⟩ := pu
                rcases List.mem_filter.mp hin with ⟨hmem2, hcnt⟩
                have ha : a = ch := hfst
                subst ha
                have hmem3 : (a, u) ∈ chl := by simpa [Trie.children] using hmem2
                have hfind : findC chl a = some u := findC_of_mem hnd hmem3
                refine ⟨fun a q hpre => absurd (List.prefix_nil.mp hpre) (by simp), ?_, ?_⟩
                · rw [List.nil_append, exAt_cons]
                  simp only [Trie.children, hfind]
                  rfl
                · rw [List.nil_append, cntAt_cons]
                  simp only [Trie.children, hfind]
                  simpa [Trie.cntAt] using hcnt
              · rintro ⟨-, hex, hcnt⟩
                rw [List.nil_append, exAt_cons] at hex
                rw [List.nil_append, cntAt_cons] at hcnt
                rcases hfind : findC (Trie.node cnt we chl).children ch with _ | u
                · rw [hfind] at hex
                  simp at hex
                · rw [hfind] at hcnt
                  apply List.mem_map.mpr
                  have hmem4 : (ch, u) ∈ (Trie.node cnt we chl).children :=
                    mem_of_findC hfind
                  refine ⟨(ch, u), List.mem_filter.mpr ⟨hmem4, ?_⟩, rfl⟩
                  simpa [Trie.cntAt] using hcnt
  | cons c P ih =>
      rw [next_letters_cons]
      rcases hfind : findC t.children c with _ | child
      · constructor
        · intro h
          simp at h
        · rintro ⟨hall, -, -⟩
          obtain ⟨h1a, h1b⟩ := hall c [] (by simp [List.cons_prefix_cons])
          rw [exAt_cons, hfind] at h1a
          simp at h1a
      · have hchildwf : TrieWF child := by
          cases t with
          | node cnt we chl =>
              cases hwf with
              | node _ _ _ hnd hall2 =>
                  exact hall2 (c, child) (mem_of_findC hfind)
        dsimp only
        by_cases hzero : child.count = 0
        · rw [if_pos hzero]
          constructor
          · intro h
            simp at h
          · rintro ⟨hall, -, -⟩
            obtain ⟨h1a, h1b⟩ := hall c [] (by simp [List.cons_prefix_cons])
            rw [cntAt_cons, hfind] at h1b
            exact absurd (by simpa [Trie.cntAt] using hzero) h1b
        · rw [if_neg hzero]
          rw [ih child hchildwf]
          constructor
          · rintro ⟨hall, hex, hcnt⟩
            refine ⟨?_, ?_, ?_⟩
            · intro a q hpre
              rcases List.cons_prefix_cons.mp hpre with ⟨hac, hq⟩
              subst hac
              cases q with
              | nil =>
                  rw [exAt_cons, hfind, cntAt_cons, hfind]
                  exact ⟨rfl, by simpa [Trie.cntAt] using hzero⟩
              | cons b q =>
                  have := hall b q hq
                  rw [exAt_cons, hfind, cntAt_cons, hfind]
                  exact this
            · show t.exAt ((c :: P) ++ [ch]) = true
              rw [List.cons_append, exAt_cons, hfind]
              exact hex
            · show (0 : Int) < t.cntAt ((c :: P) ++ [ch])
              rw [List.cons_append, cntAt_cons, hfind]
              exact hcnt
          · rintro ⟨hall, hex, hcnt⟩
            rw [List.cons_append, exAt_cons, hfind] at hex
            rw [List.cons_append, cntAt_cons, hfind] at hcnt
            refine ⟨?_, hex, hcnt⟩
            intro a q hpre
            have := hall c (a :: q) (by simp [List.cons_prefix_cons, hpre])
            rw [exAt_cons, hfind, cntAt_cons, hfind] at this
            exact this

/-! ## Lemmas: tries built by adding a set and disabling a subset -/

theorem isPre_iff (p w : Word) : isPre p w = true ↔ p <+: w :=
  List.isPrefixOf_iff_prefix

theorem isPre_refl (p : Word) : isPre p p = true :=
  (isPre_iff p p).mpr (List.prefix_refl p)

theorem exAt_addAll_of_mem (S : List Word) (v : Word) (hv : v ∈ S) :
    (addAll Trie.empty S).exAt v = true := by
  rw [exAt_addAll]
  refine Bool.or_eq_true_iff.mpr (Or.inr ?_)
  exact List.any_eq_true.mpr ⟨v, hv, isPre_refl v⟩

theorem countP_sub_of_subset (S D : List Word) (hS : S.Nodup) (hD : D.Nodup)
    (hsub : ∀ v ∈ D, v ∈ S) (q : Word → Bool) :
    (S.countP q : Int) - (D.countP q : Int)
      = ((S.filter fun v => !decide (v ∈ D)).countP q : Int) := by
  have hperm : (S.filter fun v => decide (v ∈ D)).Perm D := by
    rw [List.perm_ext_iff_of_nodup (hS.filter _) hD]
    intro a
    simp only [List.mem_filter, decide_eq_true_eq]
    exact ⟨fun h => h.2, fun h => ⟨hsub a h, h⟩⟩
  have hsplit : S.countP q
      = (S.filter fun v => decide (v ∈ D)).countP q
        + (S.filter fun v => !decide (v ∈ D)).countP q := by
    have hp := List.filter_append_perm (fun v => decide (v ∈ D)) S
    have := hp.countP_eq q
    rw [← this, List.countP_append]
  rw [hsplit, hperm.countP_eq q]
  push_cast
  ring

/-- Counts in a trie built by adding the distinct words of `S` and then
disabling the distinct words of `D ⊆ S`: the count at a node is the number of
still-enabled words passing through it. -/
theorem cntAt_build_disable (S D : List Word) (hS : S.Nodup) (hD : D.Nodup)
    (hsub : ∀ v ∈ D, v ∈ S) (p : Word) :
    (remAll (addAll Trie.empty S) D).cntAt p
      = ((S.filter fun v => !decide (v ∈ D)).countP (fun v => isPre p v) : Int) := by
  rw [cntAt_remAll _ _ (fun v hv => exAt_addAll_of_mem S v (hsub v hv)),
    cntAt_addAll, cntAt_empty]
  rw [← countP_sub_of_subset S D hS hD hsub]
  ring

theorem weAt_build_disable (S D : List Word)
    (hsub : ∀ v ∈ D, v ∈ S) (p : Word) :
    (remAll (addAll Trie.empty S) D).weAt p = decide (p ∈ S) := by
  rw [weAt_remAll _ _ (fun v hv => exAt_addAll_of_mem S v (hsub v hv)),
    weAt_addAll, weAt_empty, Bool.false_or]

theorem exAt_build_disable (S D : List Word)
    (hsub : ∀ v ∈ D, v ∈ S) (a : Char) (q : Word) :
    (remAll (addAll Trie.empty S) D).exAt (a :: q) = S.any (fun v => isPre (a :: q) v) := by
  rw [exAt_remAll _ _ (fun v hv => exAt_addAll_of_mem S v (hsub v hv)),
    exAt_addAll, exAt_cons]
  cases hf : findC Trie.empty.children a
  · simp
  · simp [Trie.empty, Trie.children, findC] at hf

/-! ## Lemmas: balanced disable/enable sequences -/

theorem cntAt_applyTOp (t : Trie) (op : TOp)
    (hdis : ∀ w, op = TOp.dis w → t.exAt w = true) (p : Word) :
    (applyTOp t op).cntAt p = t.cntAt p + tOpDelta p op := by
  cases op with
  | en w => rw [applyTOp, cntAt_add]; rfl
  | dis w =>
      rw [applyTOp, cntAt_remove _ _ _ (hdis w rfl)]
      unfold tOpDelta
      by_cases h : isPre p w <;> simp [h] <;> omega

theorem exAt_applyTOp (t : Trie) (op : TOp) (v : Word)
    (hdis : ∀ w, op = TOp.dis w → t.exAt w = true) (hv : t.exAt v = true) :
    (applyTOp t op).exAt v = true := by
  cases op with
  | en w => rw [applyTOp, exAt_add, hv]; rfl
  | dis w => rw [applyTOp, exAt_remove _ _ _ (hdis w rfl), hv]

theorem applyTOps_cons (t : Trie) (op : TOp) (L : List TOp) :
    applyTOps t (op :: L) = applyTOps (applyTOp t op) L := rfl

theorem deltaSum_cons (p : Word) (op : TOp) (L : List TOp) :
    deltaSum p (op :: L) = tOpDelta p op + deltaSum p L := by
  unfold deltaSum
  rw [List.map_cons, List.sum_cons]

theorem cntAt_applyTOps (L : List TOp) (t : Trie)
    (hdis : ∀ w, TOp.dis w ∈ L → t.exAt w = true) (p : Word) :
    (applyTOps t L).cntAt p = t.cntAt p + deltaSum p L := by
  induction L generalizing t with
  | nil => simp [applyTOps, deltaSum]
  | cons op L ih =>
      rw [applyTOps_cons, deltaSum_cons,
        ih _ (fun w hw => exAt_applyTOp t op w
          (fun w2 hw2 => hdis w2 (by simp [hw2])) (hdis w (by simp [hw]))),
        cntAt_applyTOp t op (fun w hw => hdis w (by simp [hw]))]
      ring

theorem deltaSum_perm (p : Word) {L L' : List TOp} (h : L.Perm L') :
    deltaSum p L = deltaSum p L' :=
  (h.map (tOpDelta p)).sum_eq

theorem deltaSum_zero_of_balanced (p : Word) :
    ∀ (n : Nat) (L : List TOp), L.length = n → BalancedTOps L → deltaSum p L = 0 := by
  intro n
  induction n using Nat.strong_induction_on with
  | _ n ih =>
      intro L hlen hbal
      cases hL : L with
      | nil => rfl
      | cons op L0 =>
          subst hL
          have hboth : TOp.dis op.word ∈ op :: L0 ∧ TOp.en op.word ∈ op :: L0 := by
            have hcnt := hbal op (by simp)
            cases op with
            | dis v =>
                simp only [TOp.word] at hcnt ⊢
                have h1 : TOp.dis v ∈ TOp.dis v :: L0 := by simp
                have h2 : 0 < (TOp.dis v :: L0).count (TOp.dis v) :=
                  List.count_pos_iff.mpr h1
                rw [hcnt] at h2
                exact ⟨h1, List.count_pos_iff.mp h2⟩
            | en v =>
                simp only [TOp.word] at hcnt ⊢
                have h1 : TOp.en v ∈ TOp.en v :: L0 := by simp
                have h2 : 0 < (TOp.en v :: L0).count (TOp.en v) :=
                  List.count_pos_iff.mpr h1
                rw [← hcnt] at h2
                exact ⟨List.count_pos_iff.mp h2, h1⟩
          obtain ⟨hdmem, hemem⟩ := hboth
          have hp1 : (op :: L0).Perm (TOp.dis op.word :: (op :: L0).erase (TOp.dis op.word)) :=
            List.perm_cons_erase hdmem
          have hemem1 : TOp.en op.word ∈ (op :: L0).erase (TOp.dis op.word) := by
            have hce := List.count_erase (TOp.en op.word) (TOp.dis op.word) (op :: L0)
            have hne2 : ((TOp.dis op.word == TOp.en op.word) : Bool) = false := by
              simp
            rw [hne2] at hce
            simp only [if_neg Bool.false_ne_true] at hce
            have hpos : 0 < ((op :: L0).erase (TOp.dis op.word)).count (TOp.en op.word) := by
              rw [hce]
              simpa using List.count_pos_iff.mpr hemem
            exact List.count_pos_iff.mp hpos
          have hp2 : ((op :: L0).erase (TOp.dis op.word)).Perm
              (TOp.en op.word :: ((op :: L0).erase (TOp.dis op.word)).erase (TOp.en op.word)) :=
            List.perm_cons_erase hemem1
          have hperm : (op :: L0).Perm
              (TOp.dis op.word :: TOp.en op.word ::
                ((op :: L0).erase (TOp.dis op.word)).erase (TOp.en op.word)) :=
            hp1.trans (List.Perm.cons _ hp2)
          have hlen2 : (((op :: L0).erase (TOp.dis op.word)).erase (TOp.en op.word)).length < n := by
            have e1 : ((op :: L0).erase (TOp.dis op.word)).length = (op :: L0).length - 1 :=
              List.length_erase_of_mem hdmem
            have e2 : (((op :: L0).erase (TOp.dis op.word)).erase (TOp.en op.word)).length
                = ((op :: L0).erase (TOp.dis op.word)).length - 1 :=
              List.length_erase_of_mem hemem1
            have e3 : 0 < (op :: L0).length := by simp
            omega
          have hc2 : ∀ a : TOp,
              ((((op :: L0).erase (TOp.dis op.word)).erase (TOp.en op.word)).count a)
                = (op :: L0).count a
                  - (if (TOp.dis op.word == a) = true then 1 else 0)
                  - (if (TOp.en op.word == a) = true then 1 else 0) := by
            intro a
            rw [List.count_erase, List.count_erase]
          have hbal2 : BalancedTOps (((op :: L0).erase (TOp.dis op.word)).erase (TOp.en op.word)) := by
            intro op2 hop2
            have hop2L : op2 ∈ op :: L0 :=
              List.erase_subset _ _ (List.erase_subset _ _ hop2)
            have hbop2 := hbal op2 hop2L
            rw [hc2, hc2]
            by_cases hww : op.word = op2.word
            · have e1 : ((TOp.dis op.word == TOp.dis op2.word) : Bool) = true := by
                simp [hww]
              have e2 : ((TOp.en op.word == TOp.dis op2.word) : Bool) = false := by simp
              have e3 : ((TOp.dis op.word == TOp.en op2.word) : Bool) = false := by simp
              have e4 : ((TOp.en op.word == TOp.en op2.word) : Bool) = true := by
                simp [hww]
              rw [e1, e2, e3, e4]
              simp only [if_pos rfl, if_neg Bool.false_ne_true]
              omega
            · have e1 : ((TOp.dis op.word == TOp.dis op2.word) : Bool) = false := by
                simp [hww]
              have e2 : ((TOp.en op.word == TOp.dis op2.word) : Bool) = false := by simp
              have e3 : ((TOp.dis op.word == TOp.en op2.word) : Bool) = false := by simp
              have e4 : ((TOp.en op.word == TOp.en op2.word) : Bool) = false := by
                simp [hww]
              rw [e1, e2, e3, e4]
              simp only [if_neg Bool.false_ne_true]
              omega
          have hds := deltaSum_perm p hperm
          rw [hds, deltaSum_cons, deltaSum_cons,
            ih _ hlen2 _ rfl hbal2]
          unfold tOpDelta
          by_cases hpre : isPre p op.word <;> simp [hpre]

/-! ## Lemmas: geometry of `fill_positions` and maximal runs -/

theorem mem_fillPositions (rows cols : Nat) (bl : List (Nat × Nat)) (r c : Nat) :
    (r, c) ∈ fillPositions rows cols bl ↔
      r < rows ∧ c < cols ∧ isBlack bl r c = false := by
  unfold fillPositions
  rw [List.mem_flatMap]
  constructor
  · rintro ⟨a, ha, hmem⟩
    rcases List.mem_filterMap.mp hmem with ⟨b, hb, hsome⟩
    by_cases hbl : isBlack bl a b
    · simp [hbl] at hsome
    · simp [hbl] at hsome
      obtain ⟨h1, h2⟩ := hsome
      subst h1
      subst h2
      exact ⟨List.mem_range.mp ha, List.mem_range.mp hb, by simpa using hbl⟩
  · rintro ⟨hr, hc, hbl⟩
    refine ⟨r, List.mem_range.mpr hr, List.mem_filterMap.mpr ⟨c, List.mem_range.mpr hc, ?_⟩⟩
    simp [hbl]

theorem fillPositions_pairwise (rows cols : Nat) (bl : List (Nat × Nat)) :
    (fillPositions rows cols bl).Pairwise rmLt := by
  unfold fillPositions
  rw [List.pairwise_flatMap]
  constructor
  · intro r hr
    have hpw : (List.range cols).Pairwise (· < ·) := List.pairwise_lt_range cols
    have hf : ((List.range cols).filterMap fun c =>
        if isBlack bl r c then none else some (r, c))
        = ((List.range cols).filter fun c => !isBlack bl r c).map fun c => (r, c) := by
      induction (List.range cols) with
      | nil => rfl
      | cons x xs ih =>
          by_cases hx : isBlack bl r x <;>
            simp [List.filterMap_cons, List.filter_cons, hx, ih]
    rw [hf, List.pairwise_map]
    exact (hpw.filter _).imp fun hlt => Or.inr ⟨rfl, hlt⟩
  · have hpw : (List.range rows).Pairwise (· < ·) := List.pairwise_lt_range rows
    refine hpw.imp ?_
    intro r1 r2 hlt x hx y hy
    rcases List.mem_filterMap.mp hx with ⟨b1, _, hs1⟩
    rcases List.mem_filterMap.mp hy with ⟨b2, _, hs2⟩
    have hx1 : x.1 = r1 := by
      by_cases hbl : isBlack bl r1 b1 <;> simp [hbl] at hs1
      rw [← hs1]
    have hy1 : y.1 = r2 := by
      by_cases hbl : isBlack bl r2 b2 <;> simp [hbl] at hs2
      rw [← hs2]
    exact Or.inl (by rw [hx1, hy1]; exact hlt)

theorem rmLt_irrefl (p : Nat × Nat) : ¬ rmLt p p := by
  unfold rmLt
  omega

theorem rmLt_asymm (p q : Nat × Nat) : rmLt p q → ¬ rmLt q p := by
  unfold rmLt
  omega

theorem not_self_mem_rest (rows cols : Nat) (bl : List (Nat × Nat))
    (procd rest : List (Nat × Nat)) (p : Nat × Nat)
    (hsplit : fillPositions rows cols bl = procd ++ p :: rest) : p ∉ rest := by
  intro hmem
  have hpw := fillPositions_pairwise rows cols bl
  rw [hsplit, List.pairwise_append] at hpw
  have := (List.pairwise_cons.mp hpw.2.1).1 p hmem
  exact rmLt_irrefl p this

theorem rest_not_lt (rows cols : Nat) (bl : List (Nat × Nat))
    (procd rest : List (Nat × Nat)) (p q : Nat × Nat)
    (hsplit : fillPositions rows cols bl = procd ++ p :: rest) (hq : q ∈ rest) :
    rmLt p q := by
  have hpw := fillPositions_pairwise rows cols bl
  rw [hsplit, List.pairwise_append] at hpw
  exact (List.pairwise_cons.mp hpw.2.1).1 q hq

theorem mem_procd_of_lt (rows cols : Nat) (bl : List (Nat × Nat))
    (procd rest : List (Nat × Nat)) (p q : Nat × Nat)
    (hsplit : fillPositions rows cols bl = procd ++ p :: rest)
    (hq : q ∈ fillPositions rows cols bl) (hlt : rmLt q p) : q ∈ procd := by
  rw [hsplit] at hq
  rcases List.mem_append.mp hq with h | h
  · exact h
  · rcases List.mem_cons.mp h with h | h
    · subst h
      exact absurd hlt (rmLt_irrefl _)
    · exact absurd hlt (rmLt_asymm p q (rest_not_lt rows cols bl procd rest p q hsplit h))

theorem procd_not_ge (rows cols : Nat) (bl : List (Nat × Nat))
    (procd rest : List (Nat × Nat)) (p q : Nat × Nat)
    (hsplit : fillPositions rows cols bl = procd ++ p :: rest) (hq : q ∈ procd) :
    rmLt q p := by
  have hpw := fillPositions_pairwise rows cols bl
  rw [hsplit, List.pairwise_append] at hpw
  exact hpw.2.2 q hq p (by simp)

/-- Cells of an across run. -/
theorem mem_cells_across (R : Run) (hR : R.across = true) (x y : Nat) :
    (x, y) ∈ R.cells ↔ x = R.r ∧ R.c ≤ y ∧ y < R.c + R.len := by
  unfold Run.cells
  rw [if_pos hR]
  constructor
  · intro h
    rcases List.mem_map.mp h with ⟨z, hz, heq⟩
    obtain ⟨h1, h2⟩ := Prod.ext_iff.mp heq
    rcases List.mem_range'_1.mp hz with ⟨ha, hb⟩
    simp only at h1 h2
    exact ⟨h1.symm, by omega, by omega⟩
  · rintro ⟨hx, hy1, hy2⟩
    exact List.mem_map.mpr ⟨y, List.mem_range'_1.mpr ⟨hy1, hy2⟩, by rw [hx]⟩

/-- Cells of a down run. -/
theorem mem_cells_down (R : Run) (hR : R.across = false) (x y : Nat) :
    (x, y) ∈ R.cells ↔ y = R.c ∧ R.r ≤ x ∧ x < R.r + R.len := by
  unfold Run.cells
  rw [if_neg (by simp [hR])]
  constructor
  · intro h
    rcases List.mem_map.mp h with ⟨z, hz, heq⟩
    obtain ⟨h1, h2⟩ := Prod.ext_iff.mp heq
    rcases List.mem_range'_1.mp hz with ⟨ha, hb⟩
    simp only at h1 h2
    exact ⟨h2.symm, by omega, by omega⟩
  · rintro ⟨hy, hx1, hx2⟩
    exact List.mem_map.mpr ⟨x, List.mem_range'_1.mpr ⟨hx1, hx2⟩, by rw [hy]⟩

/-- Two maximal across runs through the same cell coincide. -/
theorem across_run_unique (rows cols : Nat) (bl : List (Nat × Nat)) (R1 R2 : Run)
    (h1 : IsMaxRun rows cols bl R1) (h2 : IsMaxRun rows cols bl R2)
    (ha1 : R1.across = true) (ha2 : R2.across = true) (x y : Nat)
    (hc1 : (x, y) ∈ R1.cells) (hc2 : (x, y) ∈ R2.cells) : R1 = R2 := by
  rw [mem_cells_across R1 ha1] at hc1
  rw [mem_cells_across R2 ha2] at hc2
  unfold IsMaxRun at h1 h2
  rw [if_pos ha1] at h1
  rw [if_pos ha2] at h2
  obtain ⟨hl1, hr1, hcl1, hnb1, hlm1, hrm1⟩ := h1
  obtain ⟨hl2, hr2, hcl2, hnb2, hlm2, hrm2⟩ := h2
  have hrr : R1.r = R2.r := by omega
  have hcc : R1.c = R2.c := by
    by_contra hne
    rcases Nat.lt_or_ge R1.c R2.c with hlt | hge
    · have : isBlack bl R2.r (R2.c - 1) = true := by
        rcases hlm2 with h | h
        · omega
        · exact h
      have hin : isBlack bl R1.r (R1.c + (R2.c - 1 - R1.c)) = false := by
        apply hnb1
        omega
      rw [hrr] at hin
      have : R1.c + (R2.c - 1 - R1.c) = R2.c - 1 := by omega
      rw [this] at hin
      simp_all
    · have hlt2 : R2.c < R1.c := by omega
      have : isBlack bl R1.r (R1.c - 1) = true := by
        rcases hlm1 with h | h
        · omega
        · exact h
      have hin : isBlack bl R2.r (R2.c + (R1.c - 1 - R2.c)) = false := by
        apply hnb2
        omega
      rw [← hrr] at hin
      have : R2.c + (R1.c - 1 - R2.c) = R1.c - 1 := by omega
      rw [this] at hin
      simp_all
  have hll : R1.len = R2.len := by
    by_contra hne
    rcases Nat.lt_or_ge (R1.c + R1.len) (R2.c + R2.len) with hlt | hge
    · have : isBlack bl R1.r (R1.c + R1.len) = true := by
        rcases hrm1 with h | h
        · omega
        · exact h
      have hin : isBlack bl R2.r (R2.c + (R1.c + R1.len - R2.c)) = false := by
        apply hnb2
        omega
      rw [← hrr] at hin
      have he : R2.c + (R1.c + R1.len - R2.c) = R1.c + R1.len := by omega
      rw [he] at hin
      simp_all
    · have hlt2 : R2.c + R2.len < R1.c + R1.len ∨ R2.c + R2.len = R1.c + R1.len := by omega
      rcases hlt2 with hlt2 | heq
      · have : isBlack bl R2.r (R2.c + R2.len) = true := by
          rcases hrm2 with h | h
          · omega
          · exact h
        have hin : isBlack bl R1.r (R1.c + (R2.c + R2.len - R1.c)) = false := by
          apply hnb1
          omega
        rw [hrr] at hin
        have he : R1.c + (R2.c + R2.len - R1.c) = R2.c + R2.len := by omega
        rw [he] at hin
        simp_all
      · omega
  obtain ⟨a1, b1, c1, d1⟩ := R1
  obtain ⟨a2, b2, c2, d2⟩ := R2
  simp_all

/-- Two maximal down runs through the same cell coincide. -/
theorem down_run_unique (rows cols : Nat) (bl : List (Nat × Nat)) (R1 R2 : Run)
    (h1 : IsMaxRun rows cols bl R1) (h2 : IsMaxRun rows cols bl R2)
    (ha1 : R1.across = false) (ha2 : R2.across = false) (x y : Nat)
    (hc1 : (x, y) ∈ R1.cells) (hc2 : (x, y) ∈ R2.cells) : R1 = R2 := by
  rw [mem_cells_down R1 ha1] at hc1
  rw [mem_cells_down R2 ha2] at hc2
  unfold IsMaxRun at h1 h2
  rw [if_neg (by simp [ha1])] at h1
  rw [if_neg (by simp [ha2])] at h2
  obtain ⟨hl1, hr1, hcl1, hnb1, hlm1, hrm1⟩ := h1
  obtain ⟨hl2, hr2, hcl2, hnb2, hlm2, hrm2⟩ := h2
  have hcc : R1.c = R2.c := by omega
  have hrr : R1.r = R2.r := by
    by_contra hne
    rcases Nat.lt_or_ge R1.r R2.r with hlt | hge
    · have : isBlack bl (R2.r - 1) R2.c = true := by
        rcases hlm2 with h | h
        · omega
        · exact h
      have hin : isBlack bl (R1.r + (R2.r - 1 - R1.r)) R1.c = false := by
        apply hnb1
        omega
      rw [hcc] at hin
      have he : R1.r + (R2.r - 1 - R1.r) = R2.r - 1 := by omega
      rw [he] at hin
      simp_all
    · have hlt2 : R2.r < R1.r := by omega
      have : isBlack bl (R1.r - 1) R1.c = true := by
        rcases hlm1 with h | h
        · omega
        · exact h
      have hin : isBlack bl (R2.r + (R1.r - 1 - R2.r)) R2.c = false := by
        apply hnb2
        omega
      rw [← hcc] at hin
      have he : R2.r + (R1.r - 1 - R2.r) = R1.r - 1 := by omega
      rw [he] at hin
      simp_all
  have hll : R1.len = R2.len := by
    by_contra hne
    rcases Nat.lt_or_ge (R1.r + R1.len) (R2.r + R2.len) with hlt | hge
    · have : isBlack bl (R1.r + R1.len) R1.c = true := by
        rcases hrm1 with h | h
        · omega
        · exact h
      have hin : isBlack bl (R2.r + (R1.r + R1.len - R2.r)) R2.c = false := by
        apply hnb2
        omega
      rw [← hcc] at hin
      have he : R2.r + (R1.r + R1.len - R2.r) = R1.r + R1.len := by omega
      rw [he] at hin
      simp_all
    · have hlt2 : R2.r + R2.len < R1.r + R1.len ∨ R2.r + R2.len = R1.r + R1.len := by omega
      rcases hlt2 with hlt2 | heq
      · have : isBlack bl (R2.r + R2.len) R2.c = true := by
          rcases hrm2 with h | h
          · omega
          · exact h
        have hin : isBlack bl (R1.r + (R2.r + R2.len - R1.r)) R1.c = false := by
          apply hnb1
          omega
        rw [hcc] at hin
        have he : R1.r + (R2.r + R2.len - R1.r) = R2.r + R2.len := by omega
        rw [he] at hin
        simp_all
      · omega
  obtain ⟨a1, b1, c1, d1⟩ := R1
  obtain ⟨a2, b2, c2, d2⟩ := R2
  simp_all

/-! ## Lemmas: the completed-word scans against the invariant -/

theorem wordStartRow_succ (g : Grid) (bl : List (Nat × Nat)) (r sc k : Nat) :
    wordStartRow g bl r sc (k + 1)
      = if isBlack bl r k || decide (getCell g r k = none) then sc
        else wordStartRow g bl r k k := rfl

theorem wordStartCol_succ (g : Grid) (bl : List (Nat × Nat)) (c sc k : Nat) :
    wordStartCol g bl c sc (k + 1)
      = if isBlack bl k c || decide (getCell g k c = none) then sc
        else wordStartCol g bl c k k := rfl

theorem wordStartRow_spec (g : Grid) (bl : List (Nat × Nat)) (r : Nat) : ∀ k : Nat,
    wordStartRow g bl r k k ≤ k ∧
    (∀ x, wordStartRow g bl r k k ≤ x → x < k →
      isBlack bl r x = false ∧ getCell g r x ≠ none) ∧
    (wordStartRow g bl r k k = 0 ∨ isBlack bl r (wordStartRow g bl r k k - 1) = true ∨
      getCell g r (wordStartRow g bl r k k - 1) = none) := by
  intro k
  induction k with
  | zero => exact ⟨Nat.le_refl 0, fun x h1 h2 => absurd h2 (by omega), Or.inl rfl⟩
  | succ k ih =>
      rw [wordStartRow_succ]
      by_cases hstop : (isBlack bl r k || decide (getCell g r k = none)) = true
      · rw [if_pos hstop]
        refine ⟨Nat.le_refl _, fun x h1 h2 => absurd h2 (by omega), ?_⟩
        rcases Bool.or_eq_true_iff.mp hstop with h | h
        · exact Or.inr (Or.inl (by simpa using h))
        · exact Or.inr (Or.inr (by simpa using h))
      · rw [if_neg hstop]
        obtain ⟨ih1, ih2, ih3⟩ := ih
        refine ⟨by omega, ?_, ih3⟩
        intro x h1 h2
        rcases Nat.lt_or_ge x k with hx | hx
        · exact ih2 x h1 hx
        · have hxk : x = k := by omega
          subst hxk
          constructor
          · cases hb : isBlack bl r x with
            | false => rfl
            | true => exact absurd (by simp [hb]) hstop
          · intro hnone
            exact hstop (by simp [hnone])

theorem wordStartCol_spec (g : Grid) (bl : List (Nat × Nat)) (c : Nat) : ∀ k : Nat,
    wordStartCol g bl c k k ≤ k ∧
    (∀ x, wordStartCol g bl c k k ≤ x → x < k →
      isBlack bl x c = false ∧ getCell g x c ≠ none) ∧
    (wordStartCol g bl c k k = 0 ∨ isBlack bl (wordStartCol g bl c k k - 1) c = true ∨
      getCell g (wordStartCol g bl c k k - 1) c = none) := by
  intro k
  induction k with
  | zero => exact ⟨Nat.le_refl 0, fun x h1 h2 => absurd h2 (by omega), Or.inl rfl⟩
  | succ k ih =>
      rw [wordStartCol_succ]
      by_cases hstop : (isBlack bl k c || decide (getCell g k c = none)) = true
      · rw [if_pos hstop]
        refine ⟨Nat.le_refl _, fun x h1 h2 => absurd h2 (by omega), ?_⟩
        rcases Bool.or_eq_true_iff.mp hstop with h | h
        · exact Or.inr (Or.inl (by simpa using h))
        · exact Or.inr (Or.inr (by simpa using h))
      · rw [if_neg hstop]
        obtain ⟨ih1, ih2, ih3⟩ := ih
        refine ⟨by omega, ?_, ih3⟩
        intro x h1 h2
        rcases Nat.lt_or_ge x k with hx | hx
        · exact ih2 x h1 hx
        · have hxk : x = k := by omega
          subst hxk
          constructor
          · cases hb : isBlack bl x c with
            | false => rfl
            | true => exact absurd (by simp [hb]) hstop
          · intro hnone
            exact hstop (by simp [hnone])

theorem getCell_bound (rows cols : Nat) (g : Grid) (hWF : WFGrid rows cols g)
    (r : Nat) (hr : r < rows) : (g.getD r []).length = cols := by
  obtain ⟨h1, h2⟩ := hWF
  apply h2
  rw [List.getD_eq_getElem?_getD, List.getElem?_eq_getElem (by omega)]
  exact List.getElem_mem _

/-- Core of the across-run construction, for an abstract scan result `s`. -/
theorem across_run_of_scan (g : Grid) (bl : List (Nat × Nat)) (rows cols r c : Nat)
    (ch : Char) (s : Nat) (hWF : WFGrid rows cols g) (hr : r < rows) (hc : c < cols)
    (hnb : isBlack bl r c = false)
    (hs1 : s ≤ c)
    (hs2 : ∀ x, s ≤ x → x < c → isBlack bl r x = false ∧ getCell g r x ≠ none)
    (hlm : s = 0 ∨ isBlack bl r (s - 1) = true) :
    (completes_across bl cols r c = true →
      IsMaxRun rows cols bl ⟨true, r, s, c - s + 1⟩) ∧
    RunClosed (setCell g r c (some ch)) ⟨true, r, s, c - s + 1⟩ ∧
    runAnswer (setCell g r c (some ch)) ⟨true, r, s, c - s + 1⟩
      = ((List.range' s (c - s)).filterMap fun x => getCell g r x) ++ [ch] ∧
    (r, c) ∈ (⟨true, r, s, c - s + 1⟩ : Run).cells := by
  have hcellbound : c < (g.getD r []).length := by
    rw [getCell_bound rows cols g hWF r hr]
    exact hc
  have hgc : getCell (setCell g r c (some ch)) r c = some ch :=
    getCell_setCell_self g r c (some ch) (by rw [hWF.1]; exact hr) hcellbound
  have hsc : s + 1 * (c - s) = c := by omega
  have hcells : (⟨true, r, s, c - s + 1⟩ : Run).cells
      = ((List.range' s (c - s)).map fun x => (r, x)) ++ [(r, c)] := by
    show (if true = true then _ else _) = _
    rw [if_pos rfl, List.range'_concat, List.map_append, hsc]
    simp
  refine ⟨?_, ?_, ?_, ?_⟩
  · intro hca
    unfold IsMaxRun
    rw [if_pos rfl]
    dsimp only
    refine ⟨by omega, hr, by omega, ?_, ?_, ?_⟩
    · intro i hi
      rcases Nat.lt_or_ge (s + i) c with hx | hx
      · exact (hs2 (s + i) (by omega) hx).1
      · have he : s + i = c := by omega
        rw [he]
        exact hnb
    · simpa using hlm
    · have hse : s + (c - s + 1) = c + 1 := by omega
      rw [hse]
      unfold completes_across at hca
      rcases Bool.or_eq_true_iff.mp hca with h | h
      · exact Or.inl (by simpa using h)
      · exact Or.inr h
  · intro p hp
    rw [hcells] at hp
    rcases List.mem_append.mp hp with h | h
    · rcases List.mem_map.mp h with ⟨x, hx, heq⟩
      rcases List.mem_range'_1.mp hx with ⟨hx1, hx2⟩
      subst heq
      rw [getCell_setCell_ne g r c r x (some ch) (by
        rintro ⟨-, h2⟩
        omega)]
      exact (hs2 x hx1 (by omega)).2
    · have hpc : p = (r, c) := by simpa using h
      subst hpc
      rw [hgc]
      simp
  · unfold runAnswer
    rw [hcells, List.filterMap_append]
    have h1 : (List.filterMap (fun p => getCell (setCell g r c (some ch)) p.1 p.2)
        ((List.range' s (c - s)).map fun x => (r, x)))
        = List.filterMap (fun x => getCell g r x) (List.range' s (c - s)) := by
      rw [List.filterMap_map]
      apply List.filterMap_congr
      intro x hx
      rcases List.mem_range'_1.mp hx with ⟨hx1, hx2⟩
      show getCell (setCell g r c (some ch)) r x = getCell g r x
      exact getCell_setCell_ne g r c r x (some ch) (by
        rintro ⟨-, h2⟩
        omega)
    rw [h1]
    congr 1
    simp [hgc]
  · rw [hcells]
    simp

/-- Core of the down-run construction, for an abstract scan result `s`. -/
theorem down_run_of_scan (g : Grid) (bl : List (Nat × Nat)) (rows cols r c : Nat)
    (ch : Char) (s : Nat) (hWF : WFGrid rows cols g) (hr : r < rows) (hc : c < cols)
    (hnb : isBlack bl r c = false)
    (hs1 : s ≤ r)
    (hs2 : ∀ x, s ≤ x → x < r → isBlack bl x c = false ∧ getCell g x c ≠ none)
    (hlm : s = 0 ∨ isBlack bl (s - 1) c = true) :
    (completes_down bl rows r c = true →
      IsMaxRun rows cols bl ⟨false, s, c, r - s + 1⟩) ∧
    RunClosed (setCell g r c (some ch)) ⟨false, s, c, r - s + 1⟩ ∧
    runAnswer (setCell g r c (some ch)) ⟨false, s, c, r - s + 1⟩
      = ((List.range' s (r - s)).filterMap fun x => getCell g x c) ++ [ch] ∧
    (r, c) ∈ (⟨false, s, c, r - s + 1⟩ : Run).cells := by
  have hcellbound : c < (g.getD r []).length := by
    rw [getCell_bound rows cols g hWF r hr]
    exact hc
  have hgc : getCell (setCell g r c (some ch)) r c = some ch :=
    getCell_setCell_self g r c (some ch) (by rw [hWF.1]; exact hr) hcellbound
  have hsc : s + 1 * (r - s) = r := by omega
  have hcells : (⟨false, s, c, r - s + 1⟩ : Run).cells
      = ((List.range' s (r - s)).map fun x => (x, c)) ++ [(r, c)] := by
    show (if false = true then _ else _) = _
    rw [if_neg (by simp), List.range'_concat, List.map_append, hsc]
    simp
  refine ⟨?_, ?_, ?_, ?_⟩
  · intro hca
    unfold IsMaxRun
    rw [if_neg (by simp)]
    dsimp only
    refine ⟨by omega, hc, by omega, ?_, ?_, ?_⟩
    · intro i hi
      rcases Nat.lt_or_ge (s + i) r with hx | hx
      · exact (hs2 (s + i) (by omega) hx).1
      · have he : s + i = r := by omega
        rw [he]
        exact hnb
    · simpa using hlm
    · have hse : s + (r - s + 1) = r + 1 := by omega
      rw [hse]
      unfold completes_down at hca
      rcases Bool.or_eq_true_iff.mp hca with h | h
      · exact Or.inl (by simpa using h)
      · exact Or.inr h
  · intro p hp
    rw [hcells] at hp
    rcases List.mem_append.mp hp with h | h
    · rcases List.mem_map.mp h with ⟨x, hx, heq⟩
      rcases List.mem_range'_1.mp hx with ⟨hx1, hx2⟩
      subst heq
      rw [getCell_setCell_ne g r c x c (some ch) (by
        rintro ⟨h1, -⟩
        omega)]
      exact (hs2 x hx1 (by omega)).2
    · have hpc : p = (r, c) := by simpa using h
      subst hpc
      rw [hgc]
      simp
  · unfold runAnswer
    rw [hcells, List.filterMap_append]
    have h1 : (List.filterMap (fun p => getCell (setCell g r c (some ch)) p.1 p.2)
        ((List.range' s (r - s)).map fun x => (x, c)))
        = List.filterMap (fun x => getCell g x c) (List.range' s (r - s)) := by
      rw [List.filterMap_map]
      apply List.filterMap_congr
      intro x hx
      rcases List.mem_range'_1.mp hx with ⟨hx1, hx2⟩
      show getCell (setCell g r c (some ch)) x c = getCell g x c
      exact getCell_setCell_ne g r c x c (some ch) (by
        rintro ⟨h1, -⟩
        omega)
    rw [h1]
    congr 1
    simp [hgc]
  · rw [hcells]
    simp

/-- Runs already closed before a placement stay closed with the same answer. -/
theorem runClosed_old (g : Grid) (r c : Nat) (ch : Char) (R : Run)
    (hclosed : RunClosed g R) (hcell : getCell g r c = none) :
    RunClosed (setCell g r c (some ch)) R ∧
    runAnswer (setCell g r c (some ch)) R = runAnswer g R := by
  have hnot : (r, c) ∉ R.cells := fun hmem => hclosed (r, c) hmem hcell
  have hsame : ∀ p ∈ R.cells,
      getCell (setCell g r c (some ch)) p.1 p.2 = getCell g p.1 p.2 := by
    intro p hp
    apply getCell_setCell_ne
    rintro ⟨h1, h2⟩
    apply hnot
    have : p = (r, c) := by
      obtain ⟨p1, p2⟩ := p
      simp only at h1 h2
      simp [h1, h2]
    rw [← this]
    exact hp
  constructor
  · intro p hp
    rw [hsame p hp]
    exact hclosed p hp
  · unfold runAnswer
    exact List.filterMap_congr fun p hp => hsame p hp

/-- A run closed only after the placement must contain the placed cell. -/
theorem runClosed_new_mem (g : Grid) (r c : Nat) (ch : Char) (R : Run)
    (hclosed' : RunClosed (setCell g r c (some ch)) R)
    (hnotclosed : ¬ RunClosed g R) : (r, c) ∈ R.cells := by
  by_contra hnot
  apply hnotclosed
  intro p hp
  have : getCell (setCell g r c (some ch)) p.1 p.2 = getCell g p.1 p.2 := by
    apply getCell_setCell_ne
    rintro ⟨h1, h2⟩
    apply hnot
    have : p = (r, c) := by
      obtain ⟨p1, p2⟩ := p
      simp only at h1 h2
      simp [h1, h2]
    rw [← this]
    exact hp
  rw [← this]
  exact hclosed' p hp

/-- An across run newly closed by placing at `(r, c)` forces `completes_across`
and coincides with the scan run. -/
theorem closed_new_across (rows cols : Nat) (bl : List (Nat × Nat))
    (procd rest : List (Nat × Nat)) (g : Grid) (r c : Nat) (ch : Char) (R : Run) (s : Nat)
    (hsplit : fillPositions rows cols bl = procd ++ (r, c) :: rest)
    (hrest : ∀ p ∈ rest, getCell g p.1 p.2 = none)
    (hacross : R.across = true) (hmax : IsMaxRun rows cols bl R)
    (hclosed' : RunClosed (setCell g r c (some ch)) R)
    (hmem : (r, c) ∈ R.cells)
    (hmaxs : completes_across bl cols r c = true →
      IsMaxRun rows cols bl ⟨true, r, s, c - s + 1⟩)
    (hmems : (r, c) ∈ (⟨true, r, s, c - s + 1⟩ : Run).cells) :
    completes_across bl cols r c = true ∧ R = ⟨true, r, s, c - s + 1⟩ := by
  obtain ⟨hRr, hRc1, hRc2⟩ := (mem_cells_across R hacross r c).mp hmem
  have hmax' := hmax
  unfold IsMaxRun at hmax'
  rw [if_pos hacross] at hmax'
  obtain ⟨hlen, hrow, hcl, hnb, hlm, hrm⟩ := hmax'
  have hca : completes_across bl cols r c = true := by
    by_contra hno
    have hno' : completes_across bl cols r c = false := by
      cases h : completes_across bl cols r c
      · rfl
      · exact absurd h hno
    unfold completes_across at hno'
    rw [Bool.or_eq_false_iff] at hno'
    obtain ⟨hne, hnb1⟩ := hno'
    have hne' : c + 1 ≠ cols := by simpa using hne
    have hlt : c + 1 < R.c + R.len := by
      rcases Nat.lt_or_ge (c + 1) (R.c + R.len) with h | h
      · exact h
      · have he : c + 1 = R.c + R.len := by omega
        rcases hrm with h2 | h2
        · omega
        · rw [← he, ← hRr] at h2
          rw [h2] at hnb1
          exact absurd hnb1 (by simp)
    have hmem1 : (r, c + 1) ∈ R.cells :=
      (mem_cells_across R hacross r (c + 1)).mpr ⟨hRr, by omega, hlt⟩
    have hnb2 : isBlack bl r (c + 1) = false := by
      have := hnb (c + 1 - R.c) (by omega)
      have he : R.c + (c + 1 - R.c) = c + 1 := by omega
      rw [he] at this
      rw [hRr]
      exact this
    have hfp : (r, c + 1) ∈ fillPositions rows cols bl :=
      (mem_fillPositions rows cols bl r (c + 1)).mpr ⟨by omega, by omega, hnb2⟩
    rw [hsplit] at hfp
    rcases List.mem_append.mp hfp with h | h
    · have := procd_not_ge rows cols bl procd rest (r, c) (r, c + 1) hsplit h
      unfold rmLt at this
      simp only at this
      omega
    · rcases List.mem_cons.mp h with h | h
      · have : c + 1 = c := (Prod.ext_iff.mp h).2
        omega
      · have hempty : getCell g r (c + 1) = none := hrest (r, c + 1) h
        have hsame : getCell (setCell g r c (some ch)) r (c + 1) = getCell g r (c + 1) :=
          getCell_setCell_ne g r c r (c + 1) (some ch) (by
            rintro ⟨-, h2⟩
            omega)
        exact hclosed' (r, c + 1) hmem1 (by rw [hsame, hempty])
  exact ⟨hca, across_run_unique rows cols bl R _ hmax (hmaxs hca) hacross rfl r c hmem hmems⟩

/-- The down analog of `closed_new_across`. -/
theorem closed_new_down (rows cols : Nat) (bl : List (Nat × Nat))
    (procd rest : List (Nat × Nat)) (g : Grid) (r c : Nat) (ch : Char) (R : Run) (s : Nat)
    (hsplit : fillPositions rows cols bl = procd ++ (r, c) :: rest)
    (hrest : ∀ p ∈ rest, getCell g p.1 p.2 = none)
    (hdown : R.across = false) (hmax : IsMaxRun rows cols bl R)
    (hclosed' : RunClosed (setCell g r c (some ch)) R)
    (hmem : (r, c) ∈ R.cells)
    (hmaxs : completes_down bl rows r c = true →
      IsMaxRun rows cols bl ⟨false, s, c, r - s + 1⟩)
    (hmems : (r, c) ∈ (⟨false, s, c, r - s + 1⟩ : Run).cells) :
    completes_down bl rows r c = true ∧ R = ⟨false, s, c, r - s + 1⟩ := by
  obtain ⟨hRc, hRr1, hRr2⟩ := (mem_cells_down R hdown r c).mp hmem
  have hmax' := hmax
  unfold IsMaxRun at hmax'
  rw [if_neg (by simp [hdown])] at hmax'
  obtain ⟨hlen, hcol, hcl, hnb, hlm, hrm⟩ := hmax'
  have hca : completes_down bl rows r c = true := by
    by_contra hno
    have hno' : completes_down bl rows r c = false := by
      cases h : completes_down bl rows r c
      · rfl
      · exact absurd h hno
    unfold completes_down at hno'
    rw [Bool.or_eq_false_iff] at hno'
    obtain ⟨hne, hnb1⟩ := hno'
    have hne' : r + 1 ≠ rows := by simpa using hne
    have hlt : r + 1 < R.r + R.len := by
      rcases Nat.lt_or_ge (r + 1) (R.r + R.len) with h | h
      · exact h
      · have he : r + 1 = R.r + R.len := by omega
        rcases hrm with h2 | h2
        · omega
        · rw [← he, ← hRc] at h2
          rw [h2] at hnb1
          exact absurd hnb1 (by simp)
    have hmem1 : (r + 1, c) ∈ R.cells :=
      (mem_cells_down R hdown (r + 1) c).mpr ⟨hRc, by omega, hlt⟩
    have hnb2 : isBlack bl (r + 1) c = false := by
      have := hnb (r + 1 - R.r) (by omega)
      have he : R.r + (r + 1 - R.r) = r + 1 := by omega
      rw [he] at this
      rw [hRc]
      exact this
    have hfp : (r + 1, c) ∈ fillPositions rows cols bl :=
      (mem_fillPositions rows cols bl (r + 1) c).mpr ⟨by omega, by omega, hnb2⟩
    rw [hsplit] at hfp
    rcases List.mem_append.mp hfp with h | h
    · have := procd_not_ge rows cols bl procd rest (r, c) (r + 1, c) hsplit h
      unfold rmLt at this
      simp only at this
      omega
    · rcases List.mem_cons.mp h with h | h
      · have : r + 1 = r := (Prod.ext_iff.mp h).1
        omega
      · have hempty : getCell g (r + 1) c = none := hrest (r + 1, c) h
        have hsame : getCell (setCell g r c (some ch)) (r + 1) c = getCell g (r + 1) c :=
          getCell_setCell_ne g r c (r + 1) c (some ch) (by
            rintro ⟨h1, -⟩
            omega)
        exact hclosed' (r + 1, c) hmem1 (by rw [hsame, hempty])
  exact ⟨hca, down_run_unique rows cols bl R _ hmax (hmaxs hca) hdown rfl r c hmem hmems⟩

/-- Once every position has been processed, every maximal run is closed. -/
theorem all_closed_at_leaf (rows cols : Nat) (bl : List (Nat × Nat))
    (procd : List (Nat × Nat)) (g : Grid)
    (hsplit : fillPositions rows cols bl = procd)
    (hfilled : ∀ p ∈ procd, getCell g p.1 p.2 ≠ none)
    (R : Run) (hmax : IsMaxRun rows cols bl R) : RunClosed g R := by
  intro p hp
  obtain ⟨p1, p2⟩ := p
  cases ha : R.across with
  | true =>
      obtain ⟨h1, h2, h3⟩ := (mem_cells_across R ha p1 p2).mp hp
      unfold IsMaxRun at hmax
      rw [if_pos ha] at hmax
      obtain ⟨hlen, hrow, hcl, hnb, -, -⟩ := hmax
      have hnb2 : isBlack bl p1 p2 = false := by
        have := hnb (p2 - R.c) (by omega)
        have he : R.c + (p2 - R.c) = p2 := by omega
        rw [he] at this
        rw [h1]
        exact this
      have hfp : (p1, p2) ∈ fillPositions rows cols bl :=
        (mem_fillPositions rows cols bl p1 p2).mpr ⟨by omega, by omega, hnb2⟩
      rw [hsplit] at hfp
      exact hfilled (p1, p2) hfp
  | false =>
      obtain ⟨h1, h2, h3⟩ := (mem_cells_down R ha p1 p2).mp hp
      unfold IsMaxRun at hmax
      rw [if_neg (by simp [ha])] at hmax
      obtain ⟨hlen, hcol, hcl, hnb, -, -⟩ := hmax
      have hnb2 : isBlack bl p1 p2 = false := by
        have := hnb (p1 - R.r) (by omega)
        have he : R.r + (p1 - R.r) = p1 := by omega
        rw [he] at this
        rw [h1]
        exact this
      have hfp : (p1, p2) ∈ fillPositions rows cols bl :=
        (mem_fillPositions rows cols bl p1 p2).mpr ⟨by omega, by omega, hnb2⟩
      rw [hsplit] at hfp
      exact hfilled (p1, p2) hfp

/-! ## Lemmas: deduplication, `closedWords`, undo -/

theorem mem_dedupFirst (l : List Word) (x : Word) : x ∈ dedupFirst l ↔ x ∈ l := by
  induction l with
  | nil => rfl
  | cons w l ih =>
      show x ∈ w :: (dedupFirst l).filter (fun y => y ≠ w) ↔ _
      by_cases hx : x = w
      · simp [hx]
      · simp [List.mem_filter, hx, ih]

theorem nodup_dedupFirst (l : List Word) : (dedupFirst l).Nodup := by
  induction l with
  | nil => exact List.nodup_nil
  | cons w l ih =>
      show (w :: (dedupFirst l).filter (fun y => y ≠ w)).Nodup
      refine List.nodup_cons.mpr ⟨?_, ih.filter _⟩
      intro hmem
      rcases List.mem_filter.mp hmem with ⟨-, hne⟩
      simp at hne

theorem dedupFirst_length_le (l : List Word) : (dedupFirst l).length ≤ l.length := by
  induction l with
  | nil => exact Nat.le_refl 0
  | cons w l ih =>
      show (w :: (dedupFirst l).filter (fun y => y ≠ w)).length ≤ l.length + 1
      have := List.length_filter_le (fun y => decide (y ≠ w)) (dedupFirst l)
      simp only [List.length_cons]
      omega

theorem filter_length_eq_all {α : Type} (p : α → Bool) (l : List α)
    (h : (l.filter p).length = l.length) : ∀ x ∈ l, p x = true := by
  induction l with
  | nil => intro x hx; simp at hx
  | cons a l ih =>
      by_cases hpa : p a = true
      · rw [List.filter_cons, if_pos hpa] at h
        simp only [List.length_cons] at h
        intro x hx
        rcases List.mem_cons.mp hx with hx | hx
        · rw [hx]; exact hpa
        · exact ih (by omega) x hx
      · rw [List.filter_cons, if_neg hpa] at h
        have := List.length_filter_le p l
        simp only [List.length_cons] at h
        omega

theorem nodup_of_dedupFirst_length (l : List Word)
    (h : (dedupFirst l).length = l.length) : l.Nodup := by
  induction l with
  | nil => exact List.nodup_nil
  | cons w l ih =>
      have hshow : dedupFirst (w :: l) = w :: (dedupFirst l).filter (fun y => y ≠ w) := rfl
      rw [hshow] at h
      simp only [List.length_cons] at h
      have hfle := List.length_filter_le (fun y => decide (y ≠ w)) (dedupFirst l)
      have hdle := dedupFirst_length_le l
      have hfeq : ((dedupFirst l).filter (fun y => y ≠ w)).length = (dedupFirst l).length := by
        omega
      have hdeq : (dedupFirst l).length = l.length := by omega
      refine List.nodup_cons.mpr ⟨?_, ih hdeq⟩
      intro hwl
      have := filter_length_eq_all _ _ hfeq w ((mem_dedupFirst l w).mpr hwl)
      simp at this

theorem removeList_eq_remAll (L : List Word) (t : Trie) :
    removeList L t = remAll t L.reverse := by
  have h := removeList_reverse_append L.reverse [] t
  simpa [removeList] using h

theorem state_obs (T0 : Trie) (used : List Word)
    (hI7 : ∀ w ∈ used, T0.exAt w = true ∧ T0.weAt w = true) (p : Word) :
    (removeList used T0).exAt p = T0.exAt p ∧ (removeList used T0).weAt p = T0.weAt p := by
  rw [removeList_eq_remAll]
  exact ⟨exAt_remAll _ _ (fun v hv => (hI7 v (List.mem_reverse.mp hv)).1) p,
    weAt_remAll _ _ (fun v hv => (hI7 v (List.mem_reverse.mp hv)).1) p⟩

theorem closedWords_some (bl : List (Nat × Nat)) (rows cols r c : Nat) (ch : Char)
    (st : St) (cws : List Word)
    (h : closedWords bl rows cols r c ch st = some cws) :
    cws = (if completes_across bl cols r c = true
            then [build_completed_row_word st.grid bl r c ch] else [])
          ++ (if completes_down bl rows r c = true
            then [build_completed_col_word st.grid bl r c ch] else []) ∧
    ∀ w ∈ cws, st.trie.is_word w = true := by
  unfold closedWords at h
  by_cases hca : completes_across bl cols r c = true
  · rw [if_pos hca] at h ⊢
    by_cases hw1 : st.trie.is_word (build_completed_row_word st.grid bl r c ch) = true
    · rw [if_pos hw1] at h
      dsimp only at h
      by_cases hcd : completes_down bl rows r c = true
      · rw [if_pos hcd] at h ⊢
        by_cases hw2 : st.trie.is_word (build_completed_col_word st.grid bl r c ch) = true
        · rw [if_pos hw2] at h
          have hc : cws = [build_completed_row_word st.grid bl r c ch,
              build_completed_col_word st.grid bl r c ch] := by
            simpa using h.symm
          subst hc
          refine ⟨rfl, ?_⟩
          intro w hw
          rcases List.mem_cons.mp hw with hw | hw
          · rw [hw]; exact hw1
          · rcases List.mem_cons.mp hw with hw | hw
            · rw [hw]; exact hw2
            · simp at hw
        · rw [if_neg hw2] at h
          simp at h
      · rw [if_neg hcd] at h ⊢
        have hc : cws = [build_completed_row_word st.grid bl r c ch] := by
          simpa using h.symm
        subst hc
        refine ⟨by simp, ?_⟩
        intro w hw
        rcases List.mem_cons.mp hw with hw | hw
        · rw [hw]; exact hw1
        · simp at hw
    · rw [if_neg hw1] at h
      simp at h
  · rw [if_neg hca] at h ⊢
    dsimp only at h
    by_cases hcd : completes_down bl rows r c = true
    · rw [if_pos hcd] at h ⊢
      by_cases hw2 : st.trie.is_word (build_completed_col_word st.grid bl r c ch) = true
      · rw [if_pos hw2] at h
        have hc : cws = [build_completed_col_word st.grid bl r c ch] := by
          simpa using h.symm
        subst hc
        refine ⟨by simp, ?_⟩
        intro w hw
        rcases List.mem_cons.mp hw with hw | hw
        · rw [hw]; exact hw2
        · simp at hw
      · rw [if_neg hw2] at h
        simp at h
    · rw [if_neg hcd] at h ⊢
      have hc : cws = [] := by simpa using h.symm
      subst hc
      exact ⟨by simp, by simp⟩

theorem undo_commit (st : St) (r c : Nat) (ch : Char) (uniq : List Word)
    (hnodup : uniq.Nodup) (hused : ∀ w ∈ uniq, w ∉ st.used)
    (hisw : ∀ w ∈ uniq, st.trie.is_word w = true)
    (hcell : getCell st.grid r c = none) :
    undoSt r c uniq (commitSt r c ch uniq st) = st := by
  obtain ⟨g, u, t⟩ := st
  rw [commitSt_eq, undoSt_eq]
  simp only
  have hgrid : setCell (setCell g r c (some ch)) r c none = g := by
    rw [setCell_setCell]
    exact setCell_restore g r c hcell
  have hu : uniq.foldl (fun l w => l.erase w) (uniq.reverse ++ u) = u :=
    eraseFold_restore uniq u hnodup hused
  have ht : addAll (remAll t uniq) uniq = t := by
    apply addAll_remAll_cancel
    intro w hw
    have := hisw w hw
    rw [is_word_eq] at this
    simp only [Bool.and_eq_true] at this
    exact ⟨this.1.1, this.1.2⟩
  rw [hgrid, hu, ht]
/-- The commit step preserves the backtracking invariant, moving `(r, c)`
from the remaining to the processed positions. -/
theorem commit_inv (T0 : Trie) (rows cols : Nat) (bl : List (Nat × Nat))
    (procd rest : List (Nat × Nat)) (r c : Nat) (ch : Char) (st : St) (cws : List Word)
    (hsplit : fillPositions rows cols bl = procd ++ (r, c) :: rest)
    (hinv : Inv T0 rows cols bl procd ((r, c) :: rest) st)
    (hcw : closedWords bl rows cols r c ch st = some cws)
    (hlen : (dedupFirst cws).length = cws.length)
    (hused : ∀ w ∈ dedupFirst cws, w ∉ st.used) :
    Inv T0 rows cols bl (procd ++ [(r, c)]) rest (commitSt r c ch (dedupFirst cws) st) := by
  obtain ⟨hWF, hI1, hI2, hI5, hI6, hI7, hI8, hI9⟩ := hinv
  have hposmem : (r, c) ∈ fillPositions rows cols bl := by
    rw [hsplit]
    simp
  obtain ⟨hr, hc, hnbrc⟩ := (mem_fillPositions rows cols bl r c).mp hposmem
  have hcell : getCell st.grid r c = none := hI1 (r, c) (by simp)
  have hleft : ∀ c', c' < c → isBlack bl r c' = false → getCell st.grid r c' ≠ none := by
    intro c' hlt hnb
    exact hI2 (r, c') (mem_procd_of_lt rows cols bl procd rest (r, c) (r, c') hsplit
      ((mem_fillPositions rows cols bl r c').mpr ⟨hr, by omega, hnb⟩)
      (Or.inr ⟨rfl, hlt⟩))
  have hup : ∀ r', r' < r → isBlack bl r' c = false → getCell st.grid r' c ≠ none := by
    intro r' hlt hnb
    exact hI2 (r', c) (mem_procd_of_lt rows cols bl procd rest (r, c) (r', c) hsplit
      ((mem_fillPositions rows cols bl r' c).mpr ⟨by omega, hc, hnb⟩)
      (Or.inl hlt))
  obtain ⟨hsr1, hsr2, hsr3⟩ := wordStartRow_spec st.grid bl r c
  obtain ⟨hsc1, hsc2, hsc3⟩ := wordStartCol_spec st.grid bl c r
  have hlmr : wordStartRow st.grid bl r c c = 0 ∨
      isBlack bl r (wordStartRow st.grid bl r c c - 1) = true := by
    rcases hsr3 with h | h | h
    · exact Or.inl h
    · exact Or.inr h
    · rcases Nat.eq_zero_or_pos (wordStartRow st.grid bl r c c) with h0 | h0
      · exact Or.inl h0
      · by_cases hb : isBlack bl r (wordStartRow st.grid bl r c c - 1) = true
        · exact Or.inr hb
        · exact absurd h (hleft _ (by omega) (by simpa using hb))
  have hlmc : wordStartCol st.grid bl c r r = 0 ∨
      isBlack bl (wordStartCol st.grid bl c r r - 1) c = true := by
    rcases hsc3 with h | h | h
    · exact Or.inl h
    · exact Or.inr h
    · rcases Nat.eq_zero_or_pos (wordStartCol st.grid bl c r r) with h0 | h0
      · exact Or.inl h0
      · by_cases hb : isBlack bl (wordStartCol st.grid bl c r r - 1) c = true
        · exact Or.inr hb
        · exact absurd h (hup _ (by omega) (by simpa using hb))
  obtain ⟨hmaxA, hclosedA, hansA, hmemA⟩ := across_run_of_scan st.grid bl rows cols r c ch
    (wordStartRow st.grid bl r c c) hWF hr hc hnbrc hsr1 hsr2 hlmr
  obtain ⟨hmaxD, hclosedD, hansD, hmemD⟩ := down_run_of_scan st.grid bl rows cols r c ch
    (wordStartCol st.grid bl c r r) hWF hr hc hnbrc hsc1 hsc2 hlmc
  have hansA' : runAnswer (setCell st.grid r c (some ch))
      ⟨true, r, wordStartRow st.grid bl r c c, c - wordStartRow st.grid bl r c c + 1⟩
      = build_completed_row_word st.grid bl r c ch := hansA
  have hansD' : runAnswer (setCell st.grid r c (some ch))
      ⟨false, wordStartCol st.grid bl c r r, c, r - wordStartCol st.grid bl c r r + 1⟩
      = build_completed_col_word st.grid bl r c ch := hansD
  obtain ⟨hcwstruct, hisw⟩ := closedWords_some bl rows cols r c ch st cws hcw
  have hiswu : ∀ w ∈ dedupFirst cws, st.trie.is_word w = true := fun w hw =>
    hisw w ((mem_dedupFirst cws w).mp hw)
  -- classification of runs closed after the placement
  have hclassify : ∀ R : Run, IsMaxRun rows cols bl R →
      RunClosed (setCell st.grid r c (some ch)) R →
      (RunClosed st.grid R ∧
        runAnswer (setCell st.grid r c (some ch)) R = runAnswer st.grid R) ∨
      (completes_across bl cols r c = true ∧
        R = ⟨true, r, wordStartRow st.grid bl r c c, c - wordStartRow st.grid bl r c c + 1⟩) ∨
      (completes_down bl rows r c = true ∧
        R = ⟨false, wordStartCol st.grid bl c r r, c, r - wordStartCol st.grid bl c r r + 1⟩) := by
    intro R hmax hclosed'
    by_cases hold : RunClosed st.grid R
    · exact Or.inl ⟨hold, (runClosed_old st.grid r c ch R hold hcell).2⟩
    · have hmem := runClosed_new_mem st.grid r c ch R hclosed' hold
      cases ha : R.across with
      | true =>
          exact Or.inr (Or.inl (closed_new_across rows cols bl procd rest st.grid r c ch R
            (wordStartRow st.grid bl r c c) hsplit
            (fun p hp => hI1 p (by simp [hp])) ha hmax hclosed' hmem hmaxA hmemA))
      | false =>
          exact Or.inr (Or.inr (closed_new_down rows cols bl procd rest st.grid r c ch R
            (wordStartCol st.grid bl c r r) hsplit
            (fun p hp => hI1 p (by simp [hp])) ha hmax hclosed' hmem hmaxD hmemD))
  -- new answers are members of the committed words
  have hnewA : completes_across bl cols r c = true →
      build_completed_row_word st.grid bl r c ch ∈ dedupFirst cws := by
    intro hca
    apply (mem_dedupFirst cws _).mpr
    rw [hcwstruct, if_pos hca]
    simp
  have hnewD : completes_down bl rows r c = true →
      build_completed_col_word st.grid bl r c ch ∈ dedupFirst cws := by
    intro hcd
    apply (mem_dedupFirst cws _).mpr
    rw [hcwstruct, if_pos hcd]
    rcases h : completes_across bl cols r c with _ | _ <;> simp [h]
  rw [commitSt_eq]
  have hbound : c < (st.grid.getD r []).length := by
    rw [getCell_bound rows cols st.grid hWF r hr]
    exact hc
  have hsetc : getCell (setCell st.grid r c (some ch)) r c = some ch :=
    getCell_setCell_self st.grid r c (some ch) (by rw [hWF.1]; exact hr) hbound
  refine ⟨WFGrid_setCell rows cols st.grid r c (some ch) hWF, ?_, ?_, ?_, ?_, ?_, ?_, ?_⟩
  · -- remaining cells still empty
    intro p hp
    have hne : p ≠ (r, c) := by
      intro he
      exact not_self_mem_rest rows cols bl procd rest (r, c) hsplit (he ▸ hp)
    rw [getCell_setCell_ne st.grid r c p.1 p.2 (some ch) (by
      rintro ⟨h1, h2⟩
      apply hne
      obtain ⟨p1, p2⟩ := p
      simp only at h1 h2
      simp [h1, h2])]
    exact hI1 p (by simp [hp])
  · -- processed cells filled
    intro p hp
    rcases List.mem_append.mp hp with hp | hp
    · have hlt := procd_not_ge rows cols bl procd rest (r, c) p hsplit hp
      rw [getCell_setCell_ne st.grid r c p.1 p.2 (some ch) (by
        rintro ⟨h1, h2⟩
        apply rmLt_irrefl (r, c)
        have hpe : p = (r, c) := by
          obtain ⟨p1, p2⟩ := p
          simp only at h1 h2
          simp [h1, h2]
        rw [hpe] at hlt
        exact hlt)]
      exact hI2 p hp
    · have hpe : p = (r, c) := by simpa using hp
      subst hpe
      simp only
      rw [hsetc]
      simp
  · -- closed answers recorded in used words
    intro R hmax hclosed'
    simp only
    rcases hclassify R hmax hclosed' with ⟨hold, hans⟩ | ⟨hca, hRe⟩ | ⟨hcd, hRe⟩
    · rw [hans]
      exact List.mem_append.mpr (Or.inr (hI5 R hmax hold))
    · subst hRe
      rw [hansA']
      exact List.mem_append.mpr (Or.inl (List.mem_reverse.mpr (hnewA hca)))
    · subst hRe
      rw [hansD']
      exact List.mem_append.mpr (Or.inl (List.mem_reverse.mpr (hnewD hcd)))
  · -- closed answers pairwise distinct
    intro R1 R2 hmax1 hmax2 hcl1 hcl2 hne
    rcases hclassify R1 hmax1 hcl1 with ⟨hold1, hans1⟩ | ⟨hca1, hRe1⟩ | ⟨hcd1, hRe1⟩ <;>
      rcases hclassify R2 hmax2 hcl2 with ⟨hold2, hans2⟩ | ⟨hca2, hRe2⟩ | ⟨hcd2, hRe2⟩
    · rw [hans1, hans2]
      exact hI6 R1 R2 hmax1 hmax2 hold1 hold2 hne
    · subst hRe2
      rw [hans1, hansA']
      intro heq
      exact hused _ (hnewA hca2) (heq ▸ hI5 R1 hmax1 hold1)
    · subst hRe2
      rw [hans1, hansD']
      intro heq
      exact hused _ (hnewD hcd2) (heq ▸ hI5 R1 hmax1 hold1)
    · subst hRe1
      rw [hans2, hansA']
      intro heq
      exact hused _ (hnewA hca1) (heq.symm ▸ hI5 R2 hmax2 hold2)
    · subst hRe1
      subst hRe2
      exact absurd rfl hne
    · subst hRe1
      subst hRe2
      rw [hansA', hansD']
      have hcwtwo : cws = [build_completed_row_word st.grid bl r c ch,
          build_completed_col_word st.grid bl r c ch] := by
        rw [hcwstruct, if_pos hca1, if_pos hcd2]
        rfl
      have hnd : cws.Nodup := nodup_of_dedupFirst_length cws hlen
      rw [hcwtwo] at hnd
      have := (List.nodup_cons.mp hnd).1
      intro heq
      exact this (by simp [heq])
    · subst hRe1
      rw [hans2, hansD']
      intro heq
      exact hused _ (hnewD hcd1) (heq.symm ▸ hI5 R2 hmax2 hold2)
    · subst hRe1
      subst hRe2
      rw [hansA', hansD']
      have hcwtwo : cws = [build_completed_row_word st.grid bl r c ch,
          build_completed_col_word st.grid bl r c ch] := by
        rw [hcwstruct, if_pos hca2, if_pos hcd1]
        rfl
      have hnd : cws.Nodup := nodup_of_dedupFirst_length cws hlen
      rw [hcwtwo] at hnd
      have := (List.nodup_cons.mp hnd).1
      intro heq
      exact this (by simp [heq])
    · subst hRe1
      subst hRe2
      exact absurd rfl hne
  · -- used words were loaded in the initial trie
    intro w hw
    simp only at hw
    rcases List.mem_append.mp hw with hw | hw
    · have hwu := hiswu w (List.mem_reverse.mp hw)
      rw [is_word_eq] at hwu
      simp only [Bool.and_eq_true] at hwu
      have hobs := state_obs T0 st.used hI7 w
      rw [← hI9] at hobs
      exact ⟨hobs.1 ▸ hwu.1.1, hobs.2 ▸ hwu.1.2⟩
    · exact hI7 w hw
  · -- used words distinct
    simp only
    rw [List.nodup_append]
    refine ⟨by simpa using nodup_dedupFirst cws, hI8, ?_⟩
    intro a ha
    exact hused a (List.mem_reverse.mp ha)
  · -- the trie is the initial trie minus the used words
    simp only
    rw [hI9, ← removeList_reverse_append]

theorem letterLoop_cons (recur : St → Option Grid × St) (bl : List (Nat × Nat))
    (rows cols r c : Nat) (ch : Char) (more : List Char) (st : St) :
    letterLoop recur bl rows cols r c (ch :: more) st
      = match closedWords bl rows cols r c ch st with
        | none => letterLoop recur bl rows cols r c more st
        | some cws =>
            if (dedupFirst cws).length ≠ cws.length then
              letterLoop recur bl rows cols r c more st
            else if (dedupFirst cws).any (fun w => decide (w ∈ st.used)) then
              letterLoop recur bl rows cols r c more st
            else
              match recur (commitSt r c ch (dedupFirst cws) st) with
              | (some g, st2) => (some g, st2)
              | (none, st2) =>
                  letterLoop recur bl rows cols r c more (undoSt r c (dedupFirst cws) st2) := rfl

/-- Soundness of the candidate-letter loop: on failure the state is restored
exactly; on success the final state satisfies the invariant with every
position processed. -/
theorem letterLoop_spec (T0 : Trie) (rows cols : Nat) (bl : List (Nat × Nat))
    (procd rest : List (Nat × Nat)) (r c : Nat)
    (recur : St → Option Grid × St)
    (hsplit : fillPositions rows cols bl = procd ++ (r, c) :: rest)
    (hrec : ∀ st1 : St, Inv T0 rows cols bl (procd ++ [(r, c)]) rest st1 →
      (∀ st', recur st1 = (none, st') → st' = st1) ∧
      (∀ g st', recur st1 = (some g, st') → st'.grid = g ∧
        Inv T0 rows cols bl (fillPositions rows cols bl) [] st')) :
    ∀ (chars : List Char) (st : St), Inv T0 rows cols bl procd ((r, c) :: rest) st →
      (∀ st', letterLoop recur bl rows cols r c chars st = (none, st') → st' = st) ∧
      (∀ g st', letterLoop recur bl rows cols r c chars st = (some g, st') →
        st'.grid = g ∧ Inv T0 rows cols bl (fillPositions rows cols bl) [] st') := by
  intro chars
  induction chars with
  | nil =>
      intro st hinv
      have hn : letterLoop recur bl rows cols r c [] st = (none, st) := rfl
      rw [hn]
      constructor
      · intro st' h
        exact ((Prod.ext_iff.mp h).2).symm
      · intro g st' h
        exact absurd (Prod.ext_iff.mp h).1 (by simp)
  | cons ch more ih =>
      intro st hinv
      rw [letterLoop_cons]
      rcases hcw : closedWords bl rows cols r c ch st with _ | cws
      · exact ih st hinv
      · dsimp only
        by_cases hlen : (dedupFirst cws).length ≠ cws.length
        · rw [if_pos hlen]
          exact ih st hinv
        · rw [if_neg hlen]
          by_cases hany : (dedupFirst cws).any (fun w => decide (w ∈ st.used)) = true
          · rw [if_pos hany]
            exact ih st hinv
          · rw [if_neg hany]
            have hused : ∀ w ∈ dedupFirst cws, w ∉ st.used := by
              intro w hw hmem
              apply hany
              exact List.any_eq_true.mpr ⟨w, hw, by simpa using hmem⟩
            have hleneq : (dedupFirst cws).length = cws.length := by omega
            have hinv1 := commit_inv T0 rows cols bl procd rest r c ch st cws hsplit hinv
              hcw hleneq hused
            obtain ⟨hrecN, hrecS⟩ := hrec (commitSt r c ch (dedupFirst cws) st) hinv1
            rcases hr2 : recur (commitSt r c ch (dedupFirst cws) st) with ⟨res, st2⟩
            cases res with
            | some g =>
                dsimp only
                constructor
                · intro st' h
                  exact absurd (Prod.ext_iff.mp h).1 (by simp)
                · intro g' st' h
                  obtain ⟨h1, h2⟩ := Prod.ext_iff.mp h
                  simp only at h1 h2
                  obtain ⟨hg, hinv2⟩ := hrecS g st2 hr2
                  subst h2
                  refine ⟨?_, hinv2⟩
                  rw [hg]
                  exact Option.some.inj h1
            | none =>
                dsimp only
                have hst2 : st2 = commitSt r c ch (dedupFirst cws) st := hrecN st2 hr2
                have hcell : getCell st.grid r c = none := by
                  obtain ⟨-, hI1, -⟩ := hinv
                  exact hI1 (r, c) (by simp)
                have hiswu : ∀ w ∈ dedupFirst cws, st.trie.is_word w = true := by
                  intro w hw
                  exact (closedWords_some bl rows cols r c ch st cws hcw).2 w
                    ((mem_dedupFirst cws w).mp hw)
                have hundo : undoSt r c (dedupFirst cws) st2 = st := by
                  rw [hst2]
                  exact undo_commit st r c ch (dedupFirst cws) (nodup_dedupFirst cws)
                    hused hiswu hcell
                rw [hundo]
                exact ih st hinv

theorem backtrackAux_cons (pick : Nat → List Char → List Char) (bl : List (Nat × Nat))
    (rows cols r c : Nat) (rest : List (Nat × Nat)) (st : St) :
    backtrackAux pick bl rows cols ((r, c) :: rest) st
      = (if st.trie.next_letters (rowPref st.grid bl r c) = [] then (none, st)
        else if st.trie.next_letters (colPref st.grid bl r c) = [] then (none, st)
        else if (st.trie.next_letters (rowPref st.grid bl r c)).filter
            (fun ch => decide (ch ∈ st.trie.next_letters (colPref st.grid bl r c))) = []
          then (none, st)
        else letterLoop (backtrackAux pick bl rows cols rest) bl rows cols r c
          (pick rest.length ((st.trie.next_letters (rowPref st.grid bl r c)).filter
            (fun ch => decide (ch ∈ st.trie.next_letters (colPref st.grid bl r c))))) st) := rfl

/-- Main soundness of `backtrack`: a failing call returns the state it was
given, and a succeeding call returns a state satisfying the invariant with
every position processed. -/
theorem backtrack_spec (pick : Nat → List Char → List Char) (T0 : Trie)
    (rows cols : Nat) (bl : List (Nat × Nat)) :
    ∀ (rest procd : List (Nat × Nat)) (st : St),
      fillPositions rows cols bl = procd ++ rest →
      Inv T0 rows cols bl procd rest st →
      (∀ st', backtrackAux pick bl rows cols rest st = (none, st') → st' = st) ∧
      (∀ g st', backtrackAux pick bl rows cols rest st = (some g, st') →
        st'.grid = g ∧ Inv T0 rows cols bl (fillPositions rows cols bl) [] st') := by
  intro rest
  induction rest with
  | nil =>
      intro procd st hsplit hinv
      have hn : backtrackAux pick bl rows cols [] st = (some st.grid, st) := rfl
      rw [hn]
      constructor
      · intro st' h
        exact absurd (Prod.ext_iff.mp h).1 (by simp)
      · intro g st' h
        obtain ⟨h1, h2⟩ := Prod.ext_iff.mp h
        simp only at h1 h2
        subst h2
        have hpr : procd = fillPositions rows cols bl := by
          rw [hsplit, List.append_nil]
        exact ⟨Option.some.inj h1, hpr ▸ hinv⟩
  | cons p rest ih =>
      intro procd st hsplit hinv
      obtain ⟨r, c⟩ := p
      rw [backtrackAux_cons]
      by_cases h1 : st.trie.next_letters (rowPref st.grid bl r c) = []
      · rw [if_pos h1]
        constructor
        · intro st' h
          exact ((Prod.ext_iff.mp h).2).symm
        · intro g st' h
          exact absurd (Prod.ext_iff.mp h).1 (by simp)
      · rw [if_neg h1]
        by_cases h2 : st.trie.next_letters (colPref st.grid bl r c) = []
        · rw [if_pos h2]
          constructor
          · intro st' h
            exact ((Prod.ext_iff.mp h).2).symm
          · intro g st' h
            exact absurd (Prod.ext_iff.mp h).1 (by simp)
        · rw [if_neg h2]
          by_cases h3 : (st.trie.next_letters (rowPref st.grid bl r c)).filter
              (fun ch => decide (ch ∈ st.trie.next_letters (colPref st.grid bl r c))) = []
          · rw [if_pos h3]
            constructor
            · intro st' h
              exact ((Prod.ext_iff.mp h).2).symm
            · intro g st' h
              exact absurd (Prod.ext_iff.mp h).1 (by simp)
          · rw [if_neg h3]
            have hsplit2 : fillPositions rows cols bl = (procd ++ [(r, c)]) ++ rest := by
              rw [hsplit]
              simp
            exact letterLoop_spec T0 rows cols bl procd rest r c
              (backtrackAux pick bl rows cols rest) hsplit
              (fun st1 hinv1 => ih (procd ++ [(r, c)]) st1 hsplit2 hinv1)
              (pick rest.length _) st hinv

theorem getCell_replicate (rows cols r c : Nat) :
    getCell (List.replicate rows (List.replicate cols (none : Option Char))) r c = none := by
  unfold getCell
  have h1 : (List.replicate rows (List.replicate cols (none : Option Char))).getD r []
      = if r < rows then List.replicate cols none else [] := by
    rw [List.getD_eq_getElem?_getD, List.getElem?_replicate]
    by_cases h : r < rows
    · simp only [if_pos h]
      rfl
    · simp only [if_neg h]
      rfl
  rw [h1]
  by_cases h : r < rows
  · rw [if_pos h, List.getD_eq_getElem?_getD, List.getElem?_replicate]
    by_cases h2 : c < cols
    · rw [if_pos h2]
      rfl
    · rw [if_neg h2]
      rfl
  · rw [if_neg h]
    rfl

/-- The initial state (empty grid, empty `used_words`, the caller's trie)
satisfies the backtracking invariant with no position processed. -/
theorem Inv_init (T0 : Trie) (rows cols : Nat) (bl : List (Nat × Nat)) :
    Inv T0 rows cols bl [] (fillPositions rows cols bl)
      ⟨List.replicate rows (List.replicate cols none), [], T0⟩ := by
  have hcell : ∀ r c : Nat,
      getCell (List.replicate rows (List.replicate cols (none : Option Char))) r c = none :=
    fun r c => getCell_replicate rows cols r c
  have hopen : ∀ R : Run, 1 ≤ R.len →
      ¬ RunClosed (List.replicate rows (List.replicate cols none)) R := by
    intro R hlen hcl
    cases ha : R.across with
    | true =>
        have hmem : (R.r, R.c) ∈ R.cells :=
          (mem_cells_across R ha R.r R.c).mpr ⟨rfl, Nat.le_refl _, by omega⟩
        exact hcl (R.r, R.c) hmem (hcell R.r R.c)
    | false =>
        have hmem : (R.r, R.c) ∈ R.cells :=
          (mem_cells_down R ha R.r R.c).mpr ⟨rfl, Nat.le_refl _, by omega⟩
        exact hcl (R.r, R.c) hmem (hcell R.r R.c)
  refine ⟨⟨by simp, ?_⟩, ?_, ?_, ?_, ?_, ?_, ?_, ?_⟩
  · intro row hrow
    rw [List.eq_of_mem_replicate hrow]
    simp
  · intro p hp
    exact hcell p.1 p.2
  · intro p hp
    exact absurd hp (List.not_mem_nil p)
  · intro R hmax hcl
    exfalso
    have hlen : 1 ≤ R.len := by
      unfold IsMaxRun at hmax
      cases ha : R.across with
      | true => rw [if_pos ha] at hmax; exact hmax.1
      | false => rw [if_neg (by simp [ha])] at hmax; exact hmax.1
    exact hopen R hlen hcl
  · intro R1 R2 hm1 hm2 hc1 hc2 hne
    exfalso
    have hlen : 1 ≤ R1.len := by
      unfold IsMaxRun at hm1
      cases ha : R1.across with
      | true => rw [if_pos ha] at hm1; exact hm1.1
      | false => rw [if_neg (by simp [ha])] at hm1; exact hm1.1
    exact hopen R1 hlen hc1
  · intro w hw
    exact absurd hw (List.not_mem_nil w)
  · exact List.nodup_nil
  · rfl

theorem fill_grid_eq (pick : Nat → List Char → List Char) (T0 : Trie) (rows cols : Nat)
    (bl : List (Nat × Nat)) :
    fill_grid pick T0 rows cols bl
      = ((backtrackAux pick bl rows cols (fillPositions rows cols bl)
          ⟨List.replicate rows (List.replicate cols none), [], T0⟩).1,
        (backtrackAux pick bl rows cols (fillPositions rows cols bl)
          ⟨List.replicate rows (List.replicate cols none), [], T0⟩).2.trie) := rfl

/-- A failing `fill_grid` call leaves the trie exactly as it received it. -/
theorem fill_grid_none_trie (pick : Nat → List Char → List Char) (T0 : Trie)
    (rows cols : Nat) (bl : List (Nat × Nat))
    (h : (fill_grid pick T0 rows cols bl).1 = none) :
    (fill_grid pick T0 rows cols bl).2 = T0 := by
  have h0 := backtrack_spec pick T0 rows cols bl (fillPositions rows cols bl) []
    ⟨List.replicate rows (List.replicate cols none), [], T0⟩ rfl (Inv_init T0 rows cols bl)
  rcases hres : backtrackAux pick bl rows cols (fillPositions rows cols bl)
      ⟨List.replicate rows (List.replicate cols none), [], T0⟩ with ⟨o, st'⟩
  rw [fill_grid_eq, hres] at h ⊢
  simp only at h ⊢
  subst h
  rw [h0.1 st' hres]

/-- A successful `fill_grid` call leaves a state satisfying the full-grid
invariant: the returned grid is well-formed, every maximal run is closed, its
answer sits in `used_words`, answers of distinct maximal runs differ, and
every used word carries the word-end mark of the initial trie. -/
theorem fill_grid_some_inv (pick : Nat → List Char → List Char) (T0 : Trie)
    (rows cols : Nat) (bl : List (Nat × Nat)) (g : Grid)
    (h : (fill_grid pick T0 rows cols bl).1 = some g) :
    WFGrid rows cols g ∧
    (∀ R : Run, IsMaxRun rows cols bl R →
      RunClosed g R ∧ runAnswer g R ∈
        (backtrackAux pick bl rows cols (fillPositions rows cols bl)
          ⟨List.replicate rows (List.replicate cols none), [], T0⟩).2.used) ∧
    (∀ R1 R2 : Run, IsMaxRun rows cols bl R1 → IsMaxRun rows cols bl R2 → R1 ≠ R2 →
      runAnswer g R1 ≠ runAnswer g R2) ∧
    (∀ w ∈ (backtrackAux pick bl rows cols (fillPositions rows cols bl)
        ⟨List.replicate rows (List.replicate cols none), [], T0⟩).2.used,
      T0.exAt w = true ∧ T0.weAt w = true) := by
  have h0 := backtrack_spec pick T0 rows cols bl (fillPositions rows cols bl) []
    ⟨List.replicate rows (List.replicate cols none), [], T0⟩ rfl (Inv_init T0 rows cols bl)
  rcases hres : backtrackAux pick bl rows cols (fillPositions rows cols bl)
      ⟨List.replicate rows (List.replicate cols none), [], T0⟩ with ⟨o, st'⟩
  rw [fill_grid_eq] at h
  rw [hres] at h
  simp only at h ⊢
  cases o with
  | none => exact absurd h (by simp)
  | some g' =>
      have hg' : g' = g := Option.some.inj h
      subst hg'
      obtain ⟨hg, hWF, -, hfilled, hI3, hI4, hI5, -, -⟩ := h0.2 g' st' hres
      subst hg
      have hclosed : ∀ R : Run, IsMaxRun rows cols bl R → RunClosed st'.grid R :=
        fun R hm => all_closed_at_leaf rows cols bl (fillPositions rows cols bl)
          st'.grid rfl hfilled R hm
      refine ⟨hWF, ?_, ?_, hI5⟩
      · intro R hm
        exact ⟨hclosed R hm, hI3 R hm (hclosed R hm)⟩
      · intro R1 R2 hm1 hm2 hne
        exact hI4 R1 R2 hm1 hm2 (hclosed R1 hm1) (hclosed R2 hm2) hne

/-- Soundness of `fill_grid` against the word list its trie was built from:
on success every maximal run is closed and spells a member of the list, and
distinct maximal runs spell distinct words. -/
theorem fill_grid_sound (pick : Nat → List Char → List Char) (ws : List Word)
    (rows cols : Nat) (bl : List (Nat × Nat)) (g : Grid)
    (h : (fill_grid pick (addAll Trie.empty ws) rows cols bl).1 = some g) :
    WFGrid rows cols g ∧
    (∀ R : Run, IsMaxRun rows cols bl R → RunClosed g R ∧ runAnswer g R ∈ ws) ∧
    (∀ R1 R2 : Run, IsMaxRun rows cols bl R1 → IsMaxRun rows cols bl R2 → R1 ≠ R2 →
      runAnswer g R1 ≠ runAnswer g R2) := by
  obtain ⟨hWF, hruns, hdist, hmark⟩ := fill_grid_some_inv pick (addAll Trie.empty ws)
    rows cols bl g h
  refine ⟨hWF, ?_, hdist⟩
  intro R hm
  refine ⟨(hruns R hm).1, ?_⟩
  have hwe := (hmark _ (hruns R hm).2).2
  rw [weAt_addAll, weAt_empty, Bool.false_or] at hwe
  exact of_decide_eq_true hwe

/-- C1: if `fill_grid` returns a grid, every maximal run of length at least 2
spells a member of the word set loaded into the trie, and no two maximal runs
(across or down, anywhere in the grid) spell the same word. -/
theorem C1_solver_correct (pick : Nat → List Char → List Char) (ws : List Word)
    (rows cols : Nat) (bl : List (Nat × Nat)) (g : Grid)
    (h : (fill_grid pick (addAll Trie.empty ws) rows cols bl).1 = some g) :
    (∀ R : Run, IsMaxRun rows cols bl R → 2 ≤ R.len → runAnswer g R ∈ ws) ∧
    (∀ R1 R2 : Run, IsMaxRun rows cols bl R1 → IsMaxRun rows cols bl R2 → R1 ≠ R2 →
      runAnswer g R1 ≠ runAnswer g R2) := by
  obtain ⟨-, hruns, hdist⟩ := fill_grid_sound pick ws rows cols bl g h
  exact ⟨fun R hm _ => (hruns R hm).2, hdist⟩

theorem C1_witness :
    (fill_grid pick0 (addAll Trie.empty wordsTO) 2 2 []).1 = some gridTO ∧
    ((∀ R : Run, IsMaxRun 2 2 [] R → 2 ≤ R.len → runAnswer gridTO R ∈ wordsTO) ∧
     (∀ R1 R2 : Run, IsMaxRun 2 2 [] R1 → IsMaxRun 2 2 [] R2 → R1 ≠ R2 →
       runAnswer gridTO R1 ≠ runAnswer gridTO R2)) :=
  ⟨rfl, C1_solver_correct pick0 wordsTO 2 2 [] gridTO rfl⟩

/-- C2 counterexample: after a SUCCESSFUL solve the trie is not restored —
the root count drops from 4 (the four loaded words) to 0 (all four placed
and left removed). -/
theorem C2_counterexample :
    (fill_grid pick0 (addAll Trie.empty wordsTO) 2 2 []).2.count
      ≠ (addAll Trie.empty wordsTO).count := by decide

/-- C2 (amended): only on FAILURE is the trie returned exactly as given —
the commit/undo pairing restores it along every abandoned branch, while a
successful call leaves the placed words removed. -/
theorem C2_amended (pick : Nat → List Char → List Char) (T0 : Trie)
    (rows cols : Nat) (bl : List (Nat × Nat))
    (h : (fill_grid pick T0 rows cols bl).1 = none) :
    (fill_grid pick T0 rows cols bl).2 = T0 :=
  fill_grid_none_trie pick T0 rows cols bl h

theorem C2_witness :
    (fill_grid pick0 Trie.empty 1 1 []).1 = none ∧
    (fill_grid pick0 Trie.empty 1 1 []).2 = Trie.empty :=
  ⟨rfl, C2_amended pick0 Trie.empty 1 1 [] rfl⟩

/-- C3: contrary to the spec, the solver validates length-1 closed runs with
`is_word`, so the isolated-cell template `rows=1, cols=3, blocked={(0,1)}`
fails both with the empty word set (S5's expected success) and with the
dictionary {"ab", "ba"} whose letters are available but whose length-1 runs
never pass `is_word`. -/
theorem C3_length1_validated :
    (fill_grid pick0 Trie.empty 1 3 [(0, 1)]).1 = none ∧
    (fill_grid pick0 (addAll Trie.empty wordsAB) 1 3 [(0, 1)]).1 = none :=
  ⟨rfl, rfl⟩

/-- C4 counterexample: "ab" added, "abc" added, then "ab" disabled — yet
`is_word "ab"` still reports true, because the terminal node's count is kept
positive by the still-enabled extension "abc". -/
theorem C4_counterexample :
    (((Trie.empty.add_word ['a', 'b']).add_word ['a', 'b', 'c']).remove_word
      ['a', 'b']).is_word ['a', 'b'] = true := by decide

/-- C4 (amended): for a trie built by adding the distinct words `S` and then
disabling a subset `D` of them, `is_word w` is true iff `w` was added AND some
still-enabled added word (possibly a proper extension of `w`) has `w` as a
prefix — not iff `w` itself is still enabled. -/
theorem C4_is_word_characterization (S D : List Word) (hS : S.Nodup) (hD : D.Nodup)
    (hsub : ∀ v ∈ D, v ∈ S) (w : Word) :
    (remAll (addAll Trie.empty S) D).is_word w = true ↔
      w ∈ S ∧ 0 < (S.filter fun v => !decide (v ∈ D)).countP (fun v => isPre w v) := by
  rw [is_word_eq, cntAt_build_disable S D hS hD hsub, weAt_build_disable S D hsub]
  constructor
  · intro h
    simp only [Bool.and_eq_true, decide_eq_true_eq] at h
    obtain ⟨⟨hex, hwe⟩, hcnt⟩ := h
    exact ⟨hwe, by exact_mod_cast hcnt⟩
  · rintro ⟨hmem, hcnt⟩
    simp only [Bool.and_eq_true, decide_eq_true_eq]
    refine ⟨⟨?_, hmem⟩, by exact_mod_cast hcnt⟩
    obtain ⟨v, hv, hpre⟩ := List.countP_pos.mp hcnt
    have hvS : v ∈ S := (List.mem_filter.mp hv).1
    cases w with
    | nil => rfl
    | cons a q =>
        rw [exAt_build_disable S D hsub a q]
        exact List.any_eq_true.mpr ⟨v, hvS, hpre⟩

theorem C4_witness :
    ([['a', 'b'], ['a', 'b', 'c']] : List Word).Nodup ∧
    ([['a', 'b']] : List Word).Nodup ∧
    (∀ v ∈ ([['a', 'b']] : List Word), v ∈ [['a', 'b'], ['a', 'b', 'c']]) ∧
    ((remAll (addAll Trie.empty [['a', 'b'], ['a', 'b', 'c']]) [['a', 'b']]).is_word
        ['a', 'b'] = true ↔
      ['a', 'b'] ∈ ([['a', 'b'], ['a', 'b', 'c']] : List Word) ∧
      0 < (([['a', 'b'], ['a', 'b', 'c']] : List Word).filter
        fun v => !decide (v ∈ ([['a', 'b']] : List Word))).countP
          (fun v => isPre ['a', 'b'] v)) :=
  ⟨by decide, by decide, by decide,
    C4_is_word_characterization [['a', 'b'], ['a', 'b', 'c']] [['a', 'b']]
      (by decide) (by decide) (by decide) ['a', 'b']⟩

/-- C5: prefix soundness of `next_letters` (`is_valid_prefix`) for a trie
built by adding the distinct words `S` and then disabling a subset `D`:
`ch` is offered after prefix `P` iff some still-enabled word extends
`P ++ [ch]`. -/
theorem C5_prefix_soundness (S D : List Word) (hS : S.Nodup) (hD : D.Nodup)
    (hsub : ∀ v ∈ D, v ∈ S) (P : Word) (ch : Char) :
    ch ∈ (remAll (addAll Trie.empty S) D).next_letters P ↔
      ∃ v ∈ S, v ∉ D ∧ (P ++ [ch]) <+: v := by
  have hwf : TrieWF (remAll (addAll Trie.empty S) D) :=
    TrieWF_remAll D (addAll Trie.empty S) (TrieWF_addAll S Trie.empty TrieWF_empty)
  rw [mem_next_letters _ hwf]
  constructor
  · rintro ⟨-, -, hcnt⟩
    rw [cntAt_build_disable S D hS hD hsub] at hcnt
    have hcnt2 : 0 < (S.filter fun v => !decide (v ∈ D)).countP
        (fun v => isPre (P ++ [ch]) v) := by exact_mod_cast hcnt
    obtain ⟨v, hv, hpre⟩ := List.countP_pos.mp hcnt2
    obtain ⟨hvS, hvD⟩ := List.mem_filter.mp hv
    refine ⟨v, hvS, ?_, (isPre_iff _ _).mp hpre⟩
    intro hmem
    simp [hmem] at hvD
  · rintro ⟨v, hvS, hvD, hpre⟩
    have hvf : v ∈ S.filter fun u => !decide (u ∈ D) :=
      List.mem_filter.mpr ⟨hvS, by simp [hvD]⟩
    have hpos : ∀ p : Word, p <+: v →
        0 < (S.filter fun u => !decide (u ∈ D)).countP (fun u => isPre p u) :=
      fun p hp => List.countP_pos.mpr ⟨v, hvf, (isPre_iff p v).mpr hp⟩
    refine ⟨?_, ?_, ?_⟩
    · intro a q haq
      have haqv : (a :: q) <+: v :=
        haq.trans ((List.prefix_append P [ch]).trans hpre)
      constructor
      · rw [exAt_build_disable S D hsub a q]
        exact List.any_eq_true.mpr ⟨v, hvS, (isPre_iff _ _).mpr haqv⟩
      · rw [cntAt_build_disable S D hS hD hsub]
        exact_mod_cast (hpos (a :: q) haqv).ne'
    · rcases hPc : P ++ [ch] with _ | ⟨a, q⟩
      · exact absurd hPc (by simp)
      · rw [exAt_build_disable S D hsub a q]
        refine List.any_eq_true.mpr ⟨v, hvS, (isPre_iff _ _).mpr ?_⟩
        rw [← hPc]
        exact hpre
    · rw [cntAt_build_disable S D hS hD hsub]
      exact_mod_cast hpos (P ++ [ch]) hpre

theorem C5_witness :
    ([['a', 'b'], ['a', 'c']] : List Word).Nodup ∧
    ([['a', 'c']] : List Word).Nodup ∧
    (∀ v ∈ ([['a', 'c']] : List Word), v ∈ [['a', 'b'], ['a', 'c']]) ∧
    ('b' ∈ (remAll (addAll Trie.empty [['a', 'b'], ['a', 'c']])
        [['a', 'c']]).next_letters ['a'] ↔
      ∃ v ∈ ([['a', 'b'], ['a', 'c']] : List Word),
        v ∉ ([['a', 'c']] : List Word) ∧ (['a'] ++ ['b']) <+: v) :=
  ⟨by decide, by decide, by decide,
    C5_prefix_soundness [['a', 'b'], ['a', 'c']] [['a', 'c']]
      (by decide) (by decide) (by decide) ['a'] 'b'⟩

/-- C6: the rolling-window exclusion is violated. With the word "to" in the
initial history on dates 0 and 50, the roll after date 100 strips "to" from
`previously_used` (the drop of date 0 removes it by value, although date 50
still lies inside the window), so generation for date 101 places "to" —
51 days after its date-50 occurrence. -/
theorem C6_window_violation :
    (genRun cfg6 hist6 100 101).2.2 = [(101, wordsTO)] ∧
    ['t', 'o'] ∈ histGet hist6 50 ∧ ['t', 'o'] ∈ wordsTO ∧ 101 - 50 < 100 :=
  ⟨by decide, by decide, by decide, by decide⟩

/-- No assignment of four letters to the 2x2 grid makes both rows, both
columns members of the S1 word set with all four answers distinct. -/
theorem no_s1_square (a b c d : Char) (h1 : [a, b] ∈ wordsS1) (h2 : [c, d] ∈ wordsS1)
    (h3 : [a, c] ∈ wordsS1) (h4 : [b, d] ∈ wordsS1)
    (n1 : ([a, b] : Word) ≠ [a, c]) (n2 : ([a, b] : Word) ≠ [b, d])
    (n3 : ([c, d] : Word) ≠ [a, c]) (n4 : ([c, d] : Word) ≠ [b, d]) : False := by
  simp only [wordsS1, List.mem_cons, List.not_mem_nil, or_false] at h1 h2
  rcases h1 with h | h | h | h <;> rcases h2 with g | g | g | g <;>
    (simp only [List.cons.injEq] at h g
     obtain ⟨rfl, rfl, -⟩ := h
     obtain ⟨rfl, rfl, -⟩ := g
     first
       | exact absurd h3 (by decide)
       | exact absurd h4 (by decide)
       | exact n1 rfl
       | exact n2 rfl
       | exact n3 rfl
       | exact n4 rfl)

/-- C7 counterexample: on the S1 input (2x2, no blocks, words
{"it","is","io","ts"}) the solver FAILS — the expected solved grid does not
exist, because any valid filling would need four distinct words of the set
as rows and columns, and no such assignment exists. -/
theorem C7_counterexample :
    (fill_grid pick0 (addAll Trie.empty wordsS1) 2 2 []).1 = none := rfl

/-- C7 (amended): for EVERY candidate order the solver fails on the S1
input: the word set admits no 2x2 grid whose two rows and two columns are
four distinct members. -/
theorem C7_s1_unsolvable (pick : Nat → List Char → List Char) :
    (fill_grid pick (addAll Trie.empty wordsS1) 2 2 []).1 = none := by
  rcases hres : (fill_grid pick (addAll Trie.empty wordsS1) 2 2 []).1 with _ | g
  · rfl
  · exfalso
    obtain ⟨hWF, hruns, hdist⟩ := fill_grid_sound pick wordsS1 2 2 [] g hres
    have hmA : ∀ r : Nat, r < 2 → IsMaxRun 2 2 [] ⟨true, r, 0, 2⟩ := by
      intro r hr
      show 1 ≤ 2 ∧ r < 2 ∧ 0 + 2 ≤ 2 ∧ (∀ i < 2, isBlack [] r (0 + i) = false) ∧
        (0 = 0 ∨ isBlack [] r (0 - 1) = true) ∧ (0 + 2 = 2 ∨ isBlack [] r (0 + 2) = true)
      exact ⟨by omega, hr, by omega, fun i hi => rfl, Or.inl rfl, Or.inl rfl⟩
    have hmD : ∀ c : Nat, c < 2 → IsMaxRun 2 2 [] ⟨false, 0, c, 2⟩ := by
      intro c hc
      show 1 ≤ 2 ∧ c < 2 ∧ 0 + 2 ≤ 2 ∧ (∀ i < 2, isBlack [] (0 + i) c = false) ∧
        (0 = 0 ∨ isBlack [] (0 - 1) c = true) ∧ (0 + 2 = 2 ∨ isBlack [] (0 + 2) c = true)
      exact ⟨by omega, hc, by omega, fun i hi => rfl, Or.inl rfl, Or.inl rfl⟩
    have hm0 : IsMaxRun 2 2 [] ⟨true, 0, 0, 2⟩ := hmA 0 (by omega)
    have hm1 : IsMaxRun 2 2 [] ⟨true, 1, 0, 2⟩ := hmA 1 (by omega)
    have hm2 : IsMaxRun 2 2 [] ⟨false, 0, 0, 2⟩ := hmD 0 (by omega)
    have hm3 : IsMaxRun 2 2 [] ⟨false, 0, 1, 2⟩ := hmD 1 (by omega)
    have hc00 := (hruns ⟨true, 0, 0, 2⟩ hm0).1 (0, 0) (by decide)
    have hc01 := (hruns ⟨true, 0, 0, 2⟩ hm0).1 (0, 1) (by decide)
    have hc10 := (hruns ⟨true, 1, 0, 2⟩ hm1).1 (1, 0) (by decide)
    have hc11 := (hruns ⟨true, 1, 0, 2⟩ hm1).1 (1, 1) (by decide)
    rcases ha : getCell g 0 0 with _ | a
    · exact hc00 ha
    rcases hb : getCell g 0 1 with _ | b
    · exact hc01 hb
    rcases hc : getCell g 1 0 with _ | c
    · exact hc10 hc
    rcases hd : getCell g 1 1 with _ | d
    · exact hc11 hd
    have hr0 : runAnswer g ⟨true, 0, 0, 2⟩ = [a, b] := by
      have hcl : (⟨true, 0, 0, 2⟩ : Run).cells = [(0, 0), (0, 1)] := rfl
      unfold runAnswer
      rw [hcl]
      simp [ha, hb]
    have hr1 : runAnswer g ⟨true, 1, 0, 2⟩ = [c, d] := by
      have hcl : (⟨true, 1, 0, 2⟩ : Run).cells = [(1, 0), (1, 1)] := rfl
      unfold runAnswer
      rw [hcl]
      simp [hc, hd]
    have hr2 : runAnswer g ⟨false, 0, 0, 2⟩ = [a, c] := by
      have hcl : (⟨false, 0, 0, 2⟩ : Run).cells = [(0, 0), (1, 0)] := rfl
      unfold runAnswer
      rw [hcl]
      simp [ha, hc]
    have hr3 : runAnswer g ⟨false, 0, 1, 2⟩ = [b, d] := by
      have hcl : (⟨false, 0, 1, 2⟩ : Run).cells = [(0, 1), (1, 1)] := rfl
      unfold runAnswer
      rw [hcl]
      simp [hb, hd]
    have h1 : ([a, b] : Word) ∈ wordsS1 := hr0 ▸ (hruns _ hm0).2
    have h2 : ([c, d] : Word) ∈ wordsS1 := hr1 ▸ (hruns _ hm1).2
    have h3 : ([a, c] : Word) ∈ wordsS1 := hr2 ▸ (hruns _ hm2).2
    have h4 : ([b, d] : Word) ∈ wordsS1 := hr3 ▸ (hruns _ hm3).2
    have n1 : ([a, b] : Word) ≠ [a, c] := by
      have := hdist _ _ hm0 hm2 (by decide)
      rw [hr0, hr2] at this
      exact this
    have n2 : ([a, b] : Word) ≠ [b, d] := by
      have := hdist _ _ hm0 hm3 (by decide)
      rw [hr0, hr3] at this
      exact this
    have n3 : ([c, d] : Word) ≠ [a, c] := by
      have := hdist _ _ hm1 hm2 (by decide)
      rw [hr1, hr2] at this
      exact this
    have n4 : ([c, d] : Word) ≠ [b, d] := by
      have := hdist _ _ hm1 hm3 (by decide)
      rw [hr1, hr3] at this
      exact this
    exact no_s1_square a b c d h1 h2 h3 h4 n1 n2 n3 n4

/-- C8 counterexample: a balanced disable/enable pair on a word whose path is
NOT fully present ("ab" over a trie holding only "a") does not restore the
counts — the partial decrement of `remove_word` stops at the missing child,
but the later `add_word` increments the whole path, leaving the "a" node at
count 2 instead of 1. -/
theorem C8_counterexample :
    (applyTOps (Trie.empty.add_word ['a'])
        [TOp.dis ['a', 'b'], TOp.en ['a', 'b']]).cntAt ['a']
      ≠ (Trie.empty.add_word ['a']).cntAt ['a'] := by decide

/-- C8 (amended): provided every disabled word's full path is present in the
starting trie, any per-word-balanced disable/enable sequence restores the
count at every node. -/
theorem C8_balanced_restores (t : Trie) (L : List TOp) (p : Word)
    (hdis : ∀ w, TOp.dis w ∈ L → t.exAt w = true) (hbal : BalancedTOps L) :
    (applyTOps t L).cntAt p = t.cntAt p := by
  rw [cntAt_applyTOps L t hdis p,
    deltaSum_zero_of_balanced p L.length L rfl hbal, add_zero]

theorem C8_witness :
    (∀ w, TOp.dis w ∈ [TOp.dis ['a'], TOp.en ['a']] →
      (Trie.empty.add_word ['a']).exAt w = true) ∧
    BalancedTOps [TOp.dis ['a'], TOp.en ['a']] ∧
    (applyTOps (Trie.empty.add_word ['a']) [TOp.dis ['a'], TOp.en ['a']]).cntAt ['a']
      = (Trie.empty.add_word ['a']).cntAt ['a'] := by
  have hdis : ∀ w, TOp.dis w ∈ [TOp.dis ['a'], TOp.en ['a']] →
      (Trie.empty.add_word ['a']).exAt w = true := by
    intro w hw
    simp only [List.mem_cons, List.not_mem_nil, or_false] at hw
    rcases hw with h | h
    · injection h with h2
      subst h2
      decide
    · exact TOp.noConfusion h
  have hbal : BalancedTOps [TOp.dis ['a'], TOp.en ['a']] := by
    unfold BalancedTOps
    decide
  refine ⟨hdis, hbal, ?_⟩
  exact C8_balanced_restores (Trie.empty.add_word ['a']) [TOp.dis ['a'], TOp.en ['a']]
    ['a'] hdis hbal

/-- C9 counterexample: a template whose blocked cell (5,5) lies outside the
2x2 grid raises no error — the solver proceeds and SUCCEEDS, treating the
out-of-range blocked cell as absent. -/
theorem C9_counterexample :
    (fill_grid pick0 (addAll Trie.empty wordsTO) 2 2 [(5, 5)]).1 = some gridTO := rfl

/-- C9 (amended): no template validation exists. A non-positive size is not
rejected either: `rows = 0` makes `fill_positions` empty, so the solver
immediately returns the empty grid (which the caller's `if grid:` merely
treats as an unsolved attempt) — no TemplateInvalid error is surfaced
anywhere. -/
theorem C9_no_template_validation (pick : Nat → List Char → List Char) (trie : Trie)
    (cols : Nat) (bl : List (Nat × Nat)) :
    fill_grid pick trie 0 cols bl = (some [], trie) := rfl

/-- C10: relative to the initial trie `T0`, whenever `backtrack` is entered
in a state satisfying the search invariant (as the root call is), `used_words`
is duplicate-free and the trie equals `T0` with exactly the `used_words`
removed, both at that entry and at the exit of the call — on the failure and
the success path alike. -/
theorem C10_used_equals_removed (pick : Nat → List Char → List Char) (T0 : Trie)
    (rows cols : Nat) (bl : List (Nat × Nat)) (procd rest : List (Nat × Nat)) (st : St)
    (hsplit : fillPositions rows cols bl = procd ++ rest)
    (hinv : Inv T0 rows cols bl procd rest st) :
    (st.used.Nodup ∧ st.trie = removeList st.used T0) ∧
    ((backtrackAux pick bl rows cols rest st).2.used.Nodup ∧
     (backtrackAux pick bl rows cols rest st).2.trie
       = removeList (backtrackAux pick bl rows cols rest st).2.used T0) := by
  have h0 := backtrack_spec pick T0 rows cols bl rest procd st hsplit hinv
  obtain ⟨-, -, -, -, -, -, hnd, htr⟩ := hinv
  refine ⟨⟨hnd, htr⟩, ?_⟩
  rcases hres : backtrackAux pick bl rows cols rest st with ⟨o, st'⟩
  simp only
  cases o with
  | none =>
      have hst : st' = st := h0.1 st' hres
      subst hst
      exact ⟨hnd, htr⟩
  | some g =>
      obtain ⟨-, hInv2⟩ := h0.2 g st' hres
      obtain ⟨-, -, -, -, -, -, hnd2, htr2⟩ := hInv2
      exact ⟨hnd2, htr2⟩

theorem C10_witness :
    fillPositions 0 0 [] = [] ++ [] ∧
    Inv Trie.empty 0 0 [] [] [] ⟨[], [], Trie.empty⟩ ∧
    ((([] : List Word).Nodup ∧ (Trie.empty : Trie) = removeList [] Trie.empty) ∧
     ((backtrackAux pick0 [] 0 0 [] ⟨[], [], Trie.empty⟩).2.used.Nodup ∧
      (backtrackAux pick0 [] 0 0 [] ⟨[], [], Trie.empty⟩).2.trie
        = removeList (backtrackAux pick0 [] 0 0 [] ⟨[], [], Trie.empty⟩).2.used
            Trie.empty)) :=
  ⟨rfl, Inv_init Trie.empty 0 0 [],
    C10_used_equals_removed pick0 Trie.empty 0 0 [] [] [] ⟨[], [], Trie.empty⟩ rfl
      (Inv_init Trie.empty 0 0 [])⟩

end Crossword
